import Mathlib

/-!
Verification of the Ada circular-dependency scanner (`scanner.py`).

The development shallowly embeds the three components of the program:
the dependency-graph builder (`build_with_dictionary` and its local
helpers `parse_file` / `parse_ada_file`), the cycle finder
(`parse_withs` / `recursive_parse_withs` plus the driving loop in
`scan` that clears each key after searching from it), and the cycle
canonicalizer (the two "tidy" passes at the end of `scan`).

A dependency graph (the Python dictionary `with_data`) is embedded as
an association list `List (String × List String)` preserving the
dictionary's insertion order; Python `dict` lookups become first-match
lookups, and mutation becomes explicit state passing.  The recursive
depth-first search is embedded with an explicit fuel parameter so that
all definitions stay structurally recursive and hence computable by
the kernel; the drivers instantiate the fuel with a provably
sufficient bound.  The two canonicalizer loops are embedded with
Python's exact `for`/`remove` semantics: iteration is by an index that
advances once per step while the list shrinks under it, and `remove`
deletes the first value-equal element.
-/

namespace Scanner

/-- The fixed ignore set `Lists.STANDARD_PACKAGES` of `scanner.py`. -/
def STANDARD_PACKAGES : List String :=
  ["ada", "system", "gnat", "unchecked_deallocation", "text_io"]

/-- The root component of a with'd package name: the portion before the
first `.` separator when one exists (the group captured by
`RE_WITH_CHILD_PACKAGE`), and the empty string when the name has no
separator (in `parse_file`, `child_root` stays `""` when the child
regex does not match). -/
def childRoot (s : String) : String :=
  if s.contains '.' then s.takeWhile (fun c => c ≠ '.') else ""

/-- One iteration of the `withs_list` accumulation loop of `parse_file`
(scanner.py lines 87-101): the extracted with'd name is appended unless
it is already present, or its root component is a standard package, or
the full name is a standard package. -/
def parse_file_step (acc : List String) (w : String) : List String :=
  if w ∉ acc ∧ childRoot w ∉ STANDARD_PACKAGES ∧ w ∉ STANDARD_PACKAGES then
    acc ++ [w]
  else acc

/-- The `withs_list` produced by `parse_file` from the extracted with'd
names of a file. -/
def parse_file_withs (ws : List String) : List String :=
  ws.foldl parse_file_step []

/-- One iteration of the merge loop of `parse_ada_file` (scanner.py
lines 136-138): the incoming with is appended unless already present. -/
def merge_step (acc : List String) (w : String) : List String :=
  if w ∈ acc then acc else acc ++ [w]

/-- The merge loop of `parse_ada_file` (scanner.py lines 135-138). -/
def merge_withs (old incoming : List String) : List String :=
  incoming.foldl merge_step old

/-- The keys of the `with_data` dictionary, in insertion order. -/
def keys (g : List (String × List String)) : List String := g.map Prod.fst

/-- Dictionary lookup with the absent-key default `[]`: `with_data[u]`
for present keys, and the empty list for absent ones (an absent key
behaves as "no known dependencies"). -/
def lookupEdges (g : List (String × List String)) (u : String) : List String :=
  match g.find? (fun e => e.fst == u) with
  | some e => e.snd
  | none => []

/-- Store a freshly parsed withs list under `package` (scanner.py lines
135-140): merge into the existing entry when the key is present,
otherwise insert a new entry at the end (dictionary insertion order). -/
def updateEntry (g : List (String × List String)) (p : String) (wl : List String) :
    List (String × List String) :=
  if p ∈ keys g then
    g.map (fun e => if e.fst = p then (e.fst, merge_withs e.snd wl) else e)
  else g ++ [(p, wl)]

/-- `parse_ada_file` (scanner.py lines 111-140) after the filename
regexes have produced the freestanding package name `fullName` and the
root package name `rootName`, and `parse_file` has produced the raw
with'd names `ws` and the subunit flag: subunits attribute their withs
to the root package; the package's own name is removed from the list;
the result is merged into `with_data`. -/
def parse_ada_file (g : List (String × List String)) (fullName rootName : String)
    (ws : List String) (is_subunit : Bool) : List (String × List String) :=
  let package := if is_subunit then rootName else fullName
  let wl := (parse_file_withs ws).erase package
  updateEntry g package wl

/-- The builder's composite action on a single `(unit, dependency)`
fact: the `parse_file` filtering of the one dependency name followed by
`parse_ada_file`'s self-removal and merge for `unit`. -/
def add_fact (g : List (String × List String)) (u d : String) :
    List (String × List String) :=
  updateEntry g u ((parse_file_withs [d]).erase u)

/-- Deletion of one dictionary key (`del with_data[key]`). -/
def eraseKey (g : List (String × List String)) (k : String) :
    List (String × List String) :=
  g.eraseP (fun e => e.fst == k)

/-- The finalize step of `build_with_dictionary` (scanner.py lines
172-178): collect every key whose withs list is empty, then delete
those keys. -/
def finalize (g : List (String × List String)) : List (String × List String) :=
  ((g.filter (fun e => e.snd.isEmpty)).map Prod.fst).foldl eraseKey g

/-- `recursive_parse_withs` (scanner.py lines 207-235), with the current
unit's dependency list `ds` being scanned and the shared `with_stack`
passed explicitly.  For each dependency `w` in list order: if `w` is
already on the stack then a cycle is recorded exactly when `w` equals
the bottom of the stack (the search's start); otherwise, if `w` has an
entry in `with_data`, it is pushed and recursed into (the recursive
call receives `w`'s own dependency list), and popped on return.  The
`fuel` parameter bounds the recursion depth so the definition is
structurally recursive; the driver supplies a sufficient bound. -/
def rpw (g : List (String × List String)) :
    Nat → List String → List String → List (List String)
  | 0, _, _ => []
  | fuel + 1, stack, ds =>
    ds.foldr
      (fun w acc =>
        (if w ∈ stack then
          (if stack.head? = some w then [stack ++ [w]] else [])
        else if w ∈ keys g then
          rpw g fuel (stack ++ [w]) (lookupEdges g w)
        else []) ++ acc)
      []

/-- `parse_withs` (scanner.py lines 195-242): start the stack with the
start package and search; a start with no entry yields no cycles. -/
def parse_withs (g : List (String × List String)) (start : String) :
    List (List String) :=
  if start ∈ keys g then rpw g (g.length + 1) [start] (lookupEdges g start)
  else []

/-- `with_data[key] = []` (scanner.py line 277): clear one key's
outgoing-edge list in place. -/
def clearKey (g : List (String × List String)) (k : String) :
    List (String × List String) :=
  g.map (fun e => if e.fst = k then (e.fst, ([] : List String)) else e)

/-- The search loop of `scan` (scanner.py lines 274-277): iterate the
keys in insertion order, extend the record list with each start's
cycles, and clear each start's entry after its search. -/
def searchLoop : List (String × List String) → List String → List (List String)
  | _, [] => []
  | g, k :: ks => parse_withs g k ++ searchLoop (clearKey g k) ks

/-- The raw recorded cycle list produced by the Cycle Finder for a
graph: the search loop run over all keys in insertion order. -/
def scan_records (g : List (String × List String)) : List (List String) :=
  searchLoop g (keys g)

/-- One step relation body of the first tidy pass (scanner.py lines
286-288): Python's `for cs in circular_stacks: if cs[0] != cs[-1]:
circular_stacks.remove(cs)`.  The iteration index advances once per
step while the list may shrink under it, and `remove` deletes the
first value-equal element. -/
def tidy1Go : Nat → List (List String) → Nat → List (List String)
  | 0, l, _ => l
  | fuel + 1, l, i =>
    if h : i < l.length then
      if (l.get ⟨i, h⟩).head? ≠ (l.get ⟨i, h⟩).getLast? then
        tidy1Go fuel (l.erase (l.get ⟨i, h⟩)) (i + 1)
      else tidy1Go fuel l (i + 1)
    else l

/-- The first tidy pass (well-formedness filter) of `scan`.  The fuel
`l.length` is exact: the index gains one per step and the list never
grows, so after `l.length` steps the index is past the end. -/
def tidy1 (l : List (List String)) : List (List String) := tidy1Go l.length l 0

/-- One `deque.rotate(1)`: move the last element to the front. -/
def rot1 (c : List String) : List String :=
  match c.getLast? with
  | none => []
  | some x => x :: c.dropLast

/-- `r` successive `deque.rotate(1)` calls. -/
def rotTimes (r : Nat) (c : List String) : List String := rot1^[r] c

/-- The inner rotation loop of the dedup pass (scanner.py lines
303-307): rotate `ts` one step at a time, up to `len(ts)` times,
stopping at the first rotation equal to `cs`.  Returns the number of
rotations applied when a match occurs. -/
def findRot (ts cs : List String) : Option Nat :=
  (List.range' 1 ts.length).find? (fun r => rotTimes r ts == cs)

/-- The inner `for ts in circular_stacks` loop of the dedup pass
(scanner.py lines 299-307) for a fixed outer element value `csVal`:
equal values are skipped; otherwise `ts` is rotated until it matches
`csVal`, in which case the first element equal to the rotated value is
removed from the list (Python's `remove(ts)` on the mutated deque), or
`ts` ends fully rotated (`len(ts)` single rotations, i.e. restored)
when no rotation matches.  The element at the scanned index is updated
in place to its rotated value, matching the shared-deque mutation. -/
def tidy2Inner (csVal : List String) : Nat → List (List String) → Nat → List (List String)
  | 0, l, _ => l
  | fuel + 1, l, j =>
    if h : j < l.length then
      if l.get ⟨j, h⟩ = csVal then tidy2Inner csVal fuel l (j + 1)
      else
        match findRot (l.get ⟨j, h⟩) csVal with
        | some r =>
          tidy2Inner csVal fuel
            ((l.set j (rotTimes r (l.get ⟨j, h⟩))).erase (rotTimes r (l.get ⟨j, h⟩)))
            (j + 1)
        | none => tidy2Inner csVal fuel (l.set j (rotTimes (l.get ⟨j, h⟩).length (l.get ⟨j, h⟩))) (j + 1)
    else l

/-- The outer `for cs in circular_stacks` loop of the dedup pass
(scanner.py lines 298-307): for each index, run the inner loop against
the element currently at that index. -/
def tidy2Outer : Nat → List (List String) → Nat → List (List String)
  | 0, l, _ => l
  | fuel + 1, l, i =>
    if h : i < l.length then
      tidy2Outer fuel (tidy2Inner (l.get ⟨i, h⟩) l.length l 0) (i + 1)
    else l

/-- The rotation-deduplication pass of `scan` on the endpoint-stripped
cores.  Both loop fuels are exact for the same reason as in `tidy1`. -/
def tidy2 (l : List (List String)) : List (List String) := tidy2Outer l.length l 0

/-- The full canonicalizer and result of `scan` as a function of the
built graph (scanner.py lines 283-317): the well-formedness filter,
the `cs.pop()` endpoint strip, the rotation dedup, and the
`cs.append(cs[0])` endpoint restore. -/
def scan_pipeline (g : List (String × List String)) : List (List String) :=
  (tidy2 ((tidy1 (scan_records g)).map List.dropLast)).map (fun c => c ++ [c.headI])

/-- State-passing rendering of `recursive_parse_withs`, with the shared
`with_data` dictionary threaded through every operation exactly as the
Python closure reads it: each branch receives the dictionary produced
by the operations before it and returns the dictionary for the ones
after it.  Used to state the frame property of the search. -/
def rpwS : Nat → List (String × List String) → List String → List String →
    List (String × List String) × List (List String)
  | 0, g, _, _ => (g, [])
  | fuel + 1, g, stack, ds =>
    ds.foldl
      (fun acc w =>
        if w ∈ stack then
          (acc.1, acc.2 ++ (if stack.head? = some w then [stack ++ [w]] else []))
        else if w ∈ keys acc.1 then
          let r := rpwS fuel acc.1 (stack ++ [w]) (lookupEdges acc.1 w)
          (r.1, acc.2 ++ r.2)
        else acc)
      (g, [])

/-- State-passing rendering of `parse_withs`. -/
def parse_withsS (g : List (String × List String)) (start : String) :
    List (String × List String) × List (List String) :=
  if start ∈ keys g then rpwS (g.length + 1) g [start] (lookupEdges g start)
  else (g, [])

/-- State-passing rendering of the search loop of `scan`: the
dictionary returned by each search is the one the clearing step and
all later searches operate on. -/
def searchLoopS : List (String × List String) → List String →
    List (String × List String) × List (List String)
  | g, [] => (g, [])
  | g, k :: ks =>
    let p := parse_withsS g k
    let g2 := clearKey p.1 k
    let rest := searchLoopS g2 ks
    (rest.1, p.2 ++ rest.2)

/-- Well-formedness of a built graph, the §3 invariants of the
specification: keys are distinct (it is a dictionary), no unit lists
itself, and no dependency list contains duplicates. -/
def WFGraph (g : List (String × List String)) : Prop :=
  (keys g).Nodup ∧ ∀ e ∈ g, e.2.Nodup ∧ e.1 ∉ e.2

instance (g : List (String × List String)) : Decidable (WFGraph g) := by
  unfold WFGraph; infer_instance

/-- Each unit of the sequence depends on the next. -/
def chainMem (g : List (String × List String)) : List String → Prop
  | [] => True
  | [_] => True
  | a :: b :: t => b ∈ lookupEdges g a ∧ chainMem g (b :: t)

instance instDecChainMem (g : List (String × List String)) :
    (c : List String) → Decidable (chainMem g c)
  | [] => isTrue trivial
  | [_] => isTrue trivial
  | a :: b :: t =>
    haveI := instDecChainMem g (b :: t)
    inferInstanceAs (Decidable (b ∈ lookupEdges g a ∧ chainMem g (b :: t)))

/-- An elaboration cycle of a graph in core form: a nonempty duplicate
free sequence of units, each depending on the next, whose last unit
depends back on the first. -/
def isCycleOf (g : List (String × List String)) : List String → Prop
  | [] => False
  | h :: t =>
    (h :: t).Nodup ∧ chainMem g (h :: t) ∧ h ∈ lookupEdges g ((h :: t).getLastD h)

instance (g : List (String × List String)) (c : List String) :
    Decidable (isCycleOf g c) :=
  match c with
  | [] => isFalse (fun h => h)
  | h :: t =>
    inferInstanceAs (Decidable ((h :: t).Nodup ∧ chainMem g (h :: t) ∧
      h ∈ lookupEdges g ((h :: t).getLastD h)))

/-! ### Unfolding equations for the search -/

theorem rpw_zero (g : List (String × List String)) (stack ds : List String) :
    rpw g 0 stack ds = [] := rfl

theorem rpw_nil (g : List (String × List String)) (fuel : Nat) (stack : List String) :
    rpw g (fuel + 1) stack [] = [] := rfl

theorem rpw_cons (g : List (String × List String)) (fuel : Nat)
    (stack : List String) (w : String) (ds : List String) :
    rpw g (fuel + 1) stack (w :: ds) =
      (if w ∈ stack then
        (if stack.head? = some w then [stack ++ [w]] else [])
      else if w ∈ keys g then
        rpw g fuel (stack ++ [w]) (lookupEdges g w)
      else []) ++ rpw g (fuel + 1) stack ds := rfl

/-! ### Builder lemmas -/

theorem keys_nil : keys [] = [] := rfl

theorem keys_cons (e : String × List String) (g : List (String × List String)) :
    keys (e :: g) = e.fst :: keys g := rfl

theorem lookupEdges_nil (u : String) : lookupEdges [] u = [] := rfl

theorem lookupEdges_cons (e : String × List String)
    (g : List (String × List String)) (u : String) :
    lookupEdges (e :: g) u = if e.fst = u then e.snd else lookupEdges g u := by
  by_cases h : e.fst = u <;> simp [lookupEdges, List.find?_cons, h]

theorem lookupEdges_eq_nil_of_not_mem_keys (g : List (String × List String))
    (u : String) (hu : u ∉ keys g) : lookupEdges g u = [] := by
  induction g with
  | nil => rfl
  | cons e g ih =>
    rw [keys_cons] at hu
    rw [lookupEdges_cons, if_neg (fun h => hu (by rw [← h]; exact List.mem_cons_self _ _))]
    exact ih (fun h => hu (List.mem_cons_of_mem _ h))

theorem mem_keys_of_lookupEdges_ne_nil (g : List (String × List String))
    (u : String) (hu : lookupEdges g u ≠ []) : u ∈ keys g := by
  by_contra h
  exact hu (lookupEdges_eq_nil_of_not_mem_keys g u h)

theorem merge_withs_nil (old : List String) : merge_withs old [] = old := rfl

theorem merge_withs_single (old : List String) (d : String) :
    merge_withs old [d] = if d ∈ old then old else old ++ [d] := rfl

theorem mem_merge_withs (old incoming : List String) (d : String) :
    d ∈ merge_withs old incoming ↔ d ∈ old ∨ d ∈ incoming := by
  induction incoming generalizing old with
  | nil => simp [merge_withs]
  | cons w ws ih =>
    show d ∈ merge_withs (merge_step old w) ws ↔ _
    rw [ih]
    unfold merge_step
    by_cases hw : w ∈ old
    · simp only [if_pos hw, List.mem_cons]
      constructor
      · rintro (h | h) <;> tauto
      · rintro (h | rfl | h) <;> tauto
    · simp only [if_neg hw, List.mem_append, List.mem_singleton, List.mem_cons]
      tauto

theorem parse_file_step_nodup (acc : List String) (w : String) (h : acc.Nodup) :
    (parse_file_step acc w).Nodup := by
  unfold parse_file_step
  by_cases hc : w ∉ acc ∧ childRoot w ∉ STANDARD_PACKAGES ∧ w ∉ STANDARD_PACKAGES
  · rw [if_pos hc]
    refine List.Nodup.append h (List.nodup_singleton w) ?_
    intro a ha hw
    rw [List.mem_singleton] at hw
    subst hw
    exact hc.1 ha
  · rw [if_neg hc]
    exact h

theorem foldl_parse_file_step_nodup :
    ∀ (ws acc : List String), acc.Nodup → (ws.foldl parse_file_step acc).Nodup
  | [], _, h => h
  | w :: ws, acc, h => by
    rw [List.foldl_cons]
    exact foldl_parse_file_step_nodup ws _ (parse_file_step_nodup acc w h)

theorem parse_file_withs_nodup (ws : List String) : (parse_file_withs ws).Nodup :=
  foldl_parse_file_step_nodup ws [] List.nodup_nil

theorem parse_file_withs_single (d : String) :
    parse_file_withs [d] =
      if childRoot d ∉ STANDARD_PACKAGES ∧ d ∉ STANDARD_PACKAGES then [d] else [] := by
  show parse_file_step [] d = _
  unfold parse_file_step
  simp

theorem lookupEdges_map_merge_self (g : List (String × List String))
    (p : String) (wl : List String) (hp : p ∈ keys g) :
    lookupEdges
      (g.map (fun e => if e.fst = p then (e.fst, merge_withs e.snd wl) else e)) p =
      merge_withs (lookupEdges g p) wl := by
  induction g with
  | nil => simp [keys] at hp
  | cons e g ih =>
    by_cases he : e.fst = p
    · rw [List.map_cons, if_pos he, lookupEdges_cons, lookupEdges_cons]
      simp [he]
    · rw [List.map_cons, if_neg he, lookupEdges_cons, lookupEdges_cons, if_neg he,
        if_neg he]
      apply ih
      rw [keys_cons] at hp
      rcases List.mem_cons.mp hp with h | h
      · exact absurd h.symm he
      · exact h

theorem lookupEdges_append_single_self (g : List (String × List String))
    (p : String) (wl : List String) (hp : p ∉ keys g) :
    lookupEdges (g ++ [(p, wl)]) p = wl := by
  induction g with
  | nil => simp [lookupEdges_cons, lookupEdges]
  | cons e g ih =>
    rw [keys_cons] at hp
    rw [List.cons_append, lookupEdges_cons,
      if_neg (fun h => hp (by rw [← h]; exact List.mem_cons_self _ _))]
    exact ih (fun h => hp (List.mem_cons_of_mem _ h))

theorem lookupEdges_map_merge_ne (g : List (String × List String))
    (p : String) (wl : List String) (k : String) (hk : k ≠ p) :
    lookupEdges
      (g.map (fun e => if e.fst = p then (e.fst, merge_withs e.snd wl) else e)) k =
      lookupEdges g k := by
  induction g with
  | nil => rfl
  | cons e g ih =>
    by_cases he : e.fst = p
    · rw [List.map_cons, if_pos he, lookupEdges_cons, lookupEdges_cons]
      have : e.fst ≠ k := fun h => hk (h ▸ he)
      rw [if_neg this, if_neg this]
      exact ih
    · rw [List.map_cons, if_neg he, lookupEdges_cons, lookupEdges_cons]
      by_cases hek : e.fst = k
      · rw [if_pos hek, if_pos hek]
      · rw [if_neg hek, if_neg hek]
        exact ih

theorem lookupEdges_append_single_ne (g : List (String × List String))
    (p : String) (wl : List String) (k : String) (hk : k ≠ p) :
    lookupEdges (g ++ [(p, wl)]) k = lookupEdges g k := by
  induction g with
  | nil => simp [lookupEdges_cons, lookupEdges, Ne.symm hk]
  | cons e g ih =>
    rw [List.cons_append, lookupEdges_cons, lookupEdges_cons]
    by_cases hek : e.fst = k
    · rw [if_pos hek, if_pos hek]
    · rw [if_neg hek, if_neg hek]
      exact ih

theorem lookupEdges_updateEntry_self (g : List (String × List String))
    (p : String) (wl : List String) :
    lookupEdges (updateEntry g p wl) p =
      if p ∈ keys g then merge_withs (lookupEdges g p) wl else wl := by
  unfold updateEntry
  by_cases hp : p ∈ keys g
  · rw [if_pos hp, if_pos hp]
    exact lookupEdges_map_merge_self g p wl hp
  · rw [if_neg hp, if_neg hp]
    exact lookupEdges_append_single_self g p wl hp

theorem lookupEdges_updateEntry_ne (g : List (String × List String))
    (p : String) (wl : List String) (k : String) (hk : k ≠ p) :
    lookupEdges (updateEntry g p wl) k = lookupEdges g k := by
  unfold updateEntry
  split
  · exact lookupEdges_map_merge_ne g p wl k hk
  · exact lookupEdges_append_single_ne g p wl k hk

theorem erase_of_parse_file_single (u d : String) :
    (parse_file_withs [d]).erase u =
      if d = u ∨ d ∈ STANDARD_PACKAGES ∨ childRoot d ∈ STANDARD_PACKAGES then []
      else [d] := by
  rw [parse_file_withs_single]
  by_cases hsp : childRoot d ∉ STANDARD_PACKAGES ∧ d ∉ STANDARD_PACKAGES
  · rw [if_pos hsp]
    by_cases hdu : d = u
    · subst hdu
      rw [List.erase_cons_head, if_pos (Or.inl rfl)]
    · rw [if_neg (by tauto)]
      simp [List.erase_cons, hdu]
  · rw [if_neg hsp, List.erase_nil, if_pos (by tauto)]

/-- C5: a `(unit, dependency)` fact is inserted at the end of the
unit's edge list unless the dependency equals the unit, is already
present, or is in the ignore set either by full name or by its root
component before the first separator. -/
theorem c5_add_fact_spec (g : List (String × List String)) (u d : String) :
    lookupEdges (add_fact g u d) u =
      if d = u ∨ d ∈ lookupEdges g u ∨ d ∈ STANDARD_PACKAGES ∨
          childRoot d ∈ STANDARD_PACKAGES then
        lookupEdges g u
      else lookupEdges g u ++ [d] := by
  unfold add_fact
  rw [lookupEdges_updateEntry_self, erase_of_parse_file_single]
  by_cases hku : u ∈ keys g
  · rw [if_pos hku]
    by_cases hc : d = u ∨ d ∈ STANDARD_PACKAGES ∨ childRoot d ∈ STANDARD_PACKAGES
    · rw [if_pos hc, merge_withs_nil, if_pos (by tauto)]
    · rw [if_neg hc, merge_withs_single]
      by_cases hmem : d ∈ lookupEdges g u
      · rw [if_pos hmem, if_pos (Or.inr (Or.inl hmem))]
      · rw [if_neg hmem, if_neg (by tauto)]
  · rw [if_neg hku, lookupEdges_eq_nil_of_not_mem_keys g u hku]
    by_cases hc : d = u ∨ d ∈ STANDARD_PACKAGES ∨ childRoot d ∈ STANDARD_PACKAGES
    · rw [if_pos hc, if_pos (by tauto)]
    · rw [if_neg hc, if_neg (by simp only [List.not_mem_nil]; tauto),
        List.nil_append]

/-- C7: for a source fragment flagged as a continuation (subunit), the
harvested dependencies are merged into the root unit's edge list — with
the root's self-reference removed and duplicates skipped — and every
other unit's edge list (in particular the subunit's own name, when it
differs from the root) is unchanged. -/
theorem c7_subunit_attribution (g : List (String × List String))
    (fullName rootName : String) (ws : List String) :
    (∀ d, d ∈ lookupEdges (parse_ada_file g fullName rootName ws true) rootName ↔
        d ∈ lookupEdges g rootName ∨ (d ∈ parse_file_withs ws ∧ d ≠ rootName)) ∧
      ∀ k, k ≠ rootName →
        lookupEdges (parse_ada_file g fullName rootName ws true) k =
          lookupEdges g k := by
  have hunf : parse_ada_file g fullName rootName ws true =
      updateEntry g rootName ((parse_file_withs ws).erase rootName) := rfl
  rw [hunf]
  constructor
  · intro d
    rw [lookupEdges_updateEntry_self]
    by_cases hk : rootName ∈ keys g
    · rw [if_pos hk, mem_merge_withs,
        List.Nodup.mem_erase_iff (parse_file_withs_nodup ws)]
      tauto
    · rw [if_neg hk, lookupEdges_eq_nil_of_not_mem_keys g rootName hk,
        List.Nodup.mem_erase_iff (parse_file_withs_nodup ws)]
      simp only [List.not_mem_nil, false_or]
      tauto
  · intro k hk
    exact lookupEdges_updateEntry_ne g rootName _ k hk

/-- C3: the well-formedness filter pass does not discard every
malformed entry.  On the list `[[a,b],[c,d]]`, both entries malformed,
Python's remove-during-iteration skips the element that shifts into the
removed entry's position, and the malformed `[c,d]` survives the pass. -/
theorem c3_malformed_entry_survives :
    tidy1 [["a", "b"], ["c", "d"]] = [["c", "d"]] ∧
      (["c", "d"] : List String).head? ≠ (["c", "d"] : List String).getLast? := by
  decide

theorem foldl_fst_invariant {α β γ : Type} (step : α × β → γ → α × β)
    (h : ∀ a w, (step a w).1 = a.1) :
    ∀ (l : List γ) (p : α × β), (l.foldl step p).1 = p.1
  | [], _ => rfl
  | w :: l, p => by
    rw [List.foldl_cons, foldl_fst_invariant step h l, h]

theorem rpwS_graph_frame :
    ∀ (fuel : Nat) (g : List (String × List String)) (stack ds : List String),
      (rpwS fuel g stack ds).1 = g
  | 0, _, _, _ => rfl
  | fuel + 1, g, stack, ds => by
    unfold rpwS
    apply foldl_fst_invariant
    intro a w
    by_cases h1 : w ∈ stack
    · rw [if_pos h1]
    · rw [if_neg h1]
      by_cases h2 : w ∈ keys a.1
      · rw [if_pos h2]
        exact rpwS_graph_frame fuel a.1 (stack ++ [w]) (lookupEdges a.1 w)
      · rw [if_neg h2]

/-- C9: a single search invocation leaves the dependency dictionary
unchanged — threading the dictionary through every operation of the
recursive search returns it unaltered — and along the scan loop the
dictionary evolves exactly by the caller's clearing of each processed
key, nothing else. -/
theorem c9_search_frame :
    (∀ (fuel : Nat) (g : List (String × List String)) (stack ds : List String),
        (rpwS fuel g stack ds).1 = g) ∧
      ∀ (g : List (String × List String)) (ks : List String),
        (searchLoopS g ks).1 = ks.foldl clearKey g := by
  constructor
  · exact rpwS_graph_frame
  · intro g ks
    induction ks generalizing g with
    | nil => rfl
    | cons k ks ih =>
      have hstep : (searchLoopS g (k :: ks)).1 =
          (searchLoopS (clearKey (parse_withsS g k).1 k) ks).1 := rfl
      have hp : (parse_withsS g k).1 = g := by
        unfold parse_withsS
        split
        · exact rpwS_graph_frame _ _ _ _
        · rfl
      rw [hstep, hp, List.foldl_cons]
      exact ih (clearKey g k)

/-! ### Structure of the recorded stacks -/

theorem headI_of_head? {α : Type} [Inhabited α] {l : List α} {w : α}
    (h : l.head? = some w) : l.headI = w := by
  cases l with
  | nil => cases h
  | cons a t =>
    simp only [List.head?_cons, Option.some.injEq] at h
    simpa using h

theorem head?_of_ne_nil {α : Type} [Inhabited α] {l : List α} (h : l ≠ []) :
    l.head? = some l.headI := by
  cases l with
  | nil => exact absurd rfl h
  | cons a t => rfl

theorem headI_append {α : Type} [Inhabited α] {s : List α} (t : List α)
    (h : s ≠ []) : (s ++ t).headI = s.headI := by
  cases s with
  | nil => exact absurd rfl h
  | cons a s => rfl

theorem nodup_append_singleton {α : Type} {l : List α} {w : α}
    (h : l.Nodup) (hw : w ∉ l) : (l ++ [w]).Nodup := by
  refine List.Nodup.append h (List.nodup_singleton w) ?_
  intro a ha hmem
  rw [List.mem_singleton] at hmem
  subst hmem
  exact hw ha

theorem rpw_ds_nil (g : List (String × List String)) (fuel : Nat)
    (stack : List String) : rpw g fuel stack [] = [] := by
  cases fuel <;> rfl

/-- Every record produced by the search at a given stack is the stack,
extended by the further path walked, closed with the bottom element of
the stack, and duplicate free before the closing element. -/
theorem rpw_shape (g : List (String × List String)) :
    ∀ (fuel : Nat) (stack ds : List String), stack ≠ [] → stack.Nodup →
      ∀ r ∈ rpw g fuel stack ds,
        ∃ t, r = stack ++ t ++ [stack.headI] ∧ (stack ++ t).Nodup := by
  intro fuel
  induction fuel with
  | zero =>
    intro stack ds _ _ r hr
    rw [rpw_zero] at hr
    cases hr
  | succ fuel ihf =>
    intro stack ds hne hnd
    induction ds with
    | nil =>
      intro r hr
      rw [rpw_nil] at hr
      cases hr
    | cons w ds ihd =>
      intro r hr
      rw [rpw_cons] at hr
      rcases List.mem_append.mp hr with hr | hr
      · by_cases h1 : w ∈ stack
        · rw [if_pos h1] at hr
          by_cases h2 : stack.head? = some w
          · rw [if_pos h2] at hr
            rw [List.mem_singleton] at hr
            refine ⟨[], ?_, by simpa using hnd⟩
            rw [hr, headI_of_head? h2]
            simp
          · rw [if_neg h2] at hr
            cases hr
        · rw [if_neg h1] at hr
          by_cases h2 : w ∈ keys g
          · rw [if_pos h2] at hr
            obtain ⟨t, ht, hndt⟩ := ihf (stack ++ [w]) (lookupEdges g w)
              (by simp) (nodup_append_singleton hnd h1) r hr
            refine ⟨w :: t, ?_, ?_⟩
            · rw [ht, headI_append [w] hne]
              simp [List.append_assoc]
            · rw [show stack ++ w :: t = (stack ++ [w]) ++ t by simp]
              exact hndt
          · rw [if_neg h2] at hr
            cases hr
      · exact ihd r hr

/-- Every record of a top-level search from `start` is `start`, the
walked path, and `start` again: a closed, internally duplicate free
cycle through the start unit. -/
theorem parse_withs_shape (g : List (String × List String)) (start : String) :
    ∀ r ∈ parse_withs g start,
      ∃ core, r = core ++ [start] ∧ core.headI = start ∧ core ≠ [] ∧ core.Nodup := by
  intro r hr
  unfold parse_withs at hr
  split at hr
  · obtain ⟨t, ht, hnd⟩ := rpw_shape g (g.length + 1) [start] (lookupEdges g start)
      (by simp) (List.nodup_singleton start) r hr
    exact ⟨start :: t, by simpa using ht, rfl, by simp, by simpa using hnd⟩
  · cases hr

theorem searchLoop_shape (g : List (String × List String)) :
    ∀ (ks : List String) (g' : List (String × List String)) (r : List String),
      r ∈ searchLoop g' ks →
      ∃ core start, r = core ++ [start] ∧ core.headI = start ∧ core ≠ [] ∧ core.Nodup
  | [], _, r, hr => by cases hr
  | k :: ks, g', r, hr => by
    rcases List.mem_append.mp hr with hr | hr
    · obtain ⟨core, h1, h2, h3, h4⟩ := parse_withs_shape g' k r hr
      exact ⟨core, k, h1, h2, h3, h4⟩
    · exact searchLoop_shape g ks (clearKey g' k) r hr

/-- C8: every entry of the raw cycle list produced by the Cycle Finder
is nonempty and already has its first element equal to its last (a
cycle is recorded only when the closing dependency equals the bottom of
the path stack), so the Canonicalizer's malformed-entry branch cannot
trigger on finder-produced input. -/
theorem c8_records_closed (g : List (String × List String)) (r : List String)
    (hr : r ∈ scan_records g) : r ≠ [] ∧ r.head? = r.getLast? := by
  obtain ⟨core, start, h1, h2, h3, _⟩ := searchLoop_shape g (keys g) g r hr
  subst h1
  refine ⟨by simp, ?_⟩
  rw [List.getLast?_concat]
  rw [List.head?_append_of_ne_nil _ h3, head?_of_ne_nil h3, h2]

theorem c8_records_closed_witness :
    (["a", "b", "a"] ∈ scan_records [("a", ["b"]), ("b", ["a"])]) ∧
      (["a", "b", "a"] ≠ ([] : List String) ∧
        (["a", "b", "a"] : List String).head? = (["a", "b", "a"] : List String).getLast?) :=
  ⟨by decide, c8_records_closed [("a", ["b"]), ("b", ["a"])] ["a", "b", "a"] (by decide)⟩

theorem lookupEdges_entry (g : List (String × List String)) (u : String) :
    lookupEdges g u = [] ∨ ∃ e ∈ g, e.fst = u ∧ e.snd = lookupEdges g u := by
  unfold lookupEdges
  cases hf : g.find? (fun e => e.fst == u) with
  | none => exact Or.inl rfl
  | some e =>
    refine Or.inr ⟨e, List.mem_of_find?_eq_some hf, ?_, rfl⟩
    have hp := (List.find?_eq_some.mp hf).1
    exact eq_of_beq hp

theorem lookupEdges_no_self (g : List (String × List String))
    (h : ∀ e ∈ g, e.1 ∉ e.2) (u : String) : u ∉ lookupEdges g u := by
  rcases lookupEdges_entry g u with hnil | ⟨e, hmem, hfst, hsnd⟩
  · rw [hnil]
    exact List.not_mem_nil u
  · rw [← hsnd, ← hfst]
    exact h e hmem

theorem lookupEdges_nodup (g : List (String × List String))
    (h : ∀ e ∈ g, e.2.Nodup) (u : String) : (lookupEdges g u).Nodup := by
  rcases lookupEdges_entry g u with hnil | ⟨e, hmem, _, hsnd⟩
  · rw [hnil]
    exact List.nodup_nil
  · rw [← hsnd]
    exact h e hmem

theorem keys_clearKey (g : List (String × List String)) (k : String) :
    keys (clearKey g k) = keys g := by
  induction g with
  | nil => rfl
  | cons e g ih =>
    show keys ((if e.fst = k then (e.fst, ([] : List String)) else e) :: clearKey g k) = _
    rw [keys_cons, keys_cons, ih]
    by_cases he : e.fst = k
    · rw [if_pos he]
    · rw [if_neg he]

theorem lookupEdges_clearKey_self (g : List (String × List String)) (k : String) :
    lookupEdges (clearKey g k) k = [] := by
  induction g with
  | nil => rfl
  | cons e g ih =>
    show lookupEdges ((if e.fst = k then (e.fst, ([] : List String)) else e) :: clearKey g k) k = []
    rw [lookupEdges_cons]
    by_cases he : e.fst = k
    · rw [if_pos he]
      simp [he]
    · rw [if_neg he, if_neg he]
      exact ih

theorem lookupEdges_clearKey_ne (g : List (String × List String)) (k u : String)
    (h : u ≠ k) : lookupEdges (clearKey g k) u = lookupEdges g u := by
  induction g with
  | nil => rfl
  | cons e g ih =>
    show lookupEdges ((if e.fst = k then (e.fst, ([] : List String)) else e) :: clearKey g k) u = _
    rw [lookupEdges_cons, lookupEdges_cons]
    by_cases he : e.fst = k
    · rw [if_pos he]
      have : e.fst ≠ u := fun h2 => h (h2 ▸ he)
      simp only [this, if_neg (show ¬ (e.fst, ([] : List String)).fst = u from this)]
      exact ih
    · rw [if_neg he]
      by_cases heu : e.fst = u
      · rw [if_pos heu, if_pos heu]
      · rw [if_neg heu, if_neg heu]
        exact ih

theorem lookupEdges_clearKey_nil (g : List (String × List String)) (k u : String)
    (h : lookupEdges g u = []) : lookupEdges (clearKey g k) u = [] := by
  by_cases huk : u = k
  · subst huk
    exact lookupEdges_clearKey_self g u
  · rw [lookupEdges_clearKey_ne g k u huk]
    exact h

theorem clearKey_entry_props (g : List (String × List String)) (k : String)
    (h : ∀ e ∈ g, e.2.Nodup ∧ e.1 ∉ e.2) :
    ∀ e ∈ clearKey g k, e.2.Nodup ∧ e.1 ∉ e.2 := by
  intro e he
  rcases List.mem_map.mp he with ⟨e0, he0, rfl⟩
  by_cases h0 : e0.fst = k
  · rw [if_pos h0]
    exact ⟨List.nodup_nil, List.not_mem_nil _⟩
  · rw [if_neg h0]
    exact h e0 he0

/-- Records have length at least three: the closing element can equal
the stack bottom at stack length one only through a self-edge, which is
excluded at the start, and deeper stacks already have length two. -/
theorem rpw_length (g : List (String × List String)) :
    ∀ (fuel : Nat) (stack ds : List String), stack ≠ [] →
      (2 ≤ stack.length ∨ stack.headI ∉ ds) →
      ∀ r ∈ rpw g fuel stack ds, 3 ≤ r.length := by
  intro fuel
  induction fuel with
  | zero =>
    intro stack ds _ _ r hr
    rw [rpw_zero] at hr
    cases hr
  | succ fuel ihf =>
    intro stack ds hne
    induction ds with
    | nil =>
      intro _ r hr
      rw [rpw_nil] at hr
      cases hr
    | cons w ds ihd =>
      intro hcond r hr
      rw [rpw_cons] at hr
      rcases List.mem_append.mp hr with hr | hr
      · by_cases h1 : w ∈ stack
        · rw [if_pos h1] at hr
          by_cases h2 : stack.head? = some w
          · rw [if_pos h2] at hr
            rw [List.mem_singleton] at hr
            subst hr
            rcases hcond with h | h
            · rw [List.length_append, List.length_singleton]
              omega
            · exact absurd (by rw [headI_of_head? h2]; exact List.mem_cons_self _ _) h
          · rw [if_neg h2] at hr
            cases hr
        · rw [if_neg h1] at hr
          by_cases h2 : w ∈ keys g
          · rw [if_pos h2] at hr
            refine ihf (stack ++ [w]) (lookupEdges g w) (by simp) (Or.inl ?_) r hr
            rw [List.length_append, List.length_singleton]
            have := List.length_pos.mpr hne
            omega
          · rw [if_neg h2] at hr
            cases hr
      · refine ihd ?_ r hr
        rcases hcond with h | h
        · exact Or.inl h
        · exact Or.inr (fun hmem => h (List.mem_cons_of_mem _ hmem))

/-- A unit with an empty dependency list and not already on the stack
cannot occur in any record: it can be pushed, but nothing can be pushed
on top of it and no record can be made while it is the top. -/
theorem rpw_avoid (g : List (String × List String)) (x : String)
    (hx : lookupEdges g x = []) :
    ∀ (fuel : Nat) (stack ds : List String), x ∉ stack →
      ∀ r ∈ rpw g fuel stack ds, x ∉ r := by
  intro fuel
  induction fuel with
  | zero =>
    intro stack ds _ r hr
    rw [rpw_zero] at hr
    cases hr
  | succ fuel ihf =>
    intro stack ds hxs
    induction ds with
    | nil =>
      intro r hr
      rw [rpw_nil] at hr
      cases hr
    | cons w ds ihd =>
      intro r hr
      rw [rpw_cons] at hr
      rcases List.mem_append.mp hr with hr | hr
      · by_cases h1 : w ∈ stack
        · rw [if_pos h1] at hr
          by_cases h2 : stack.head? = some w
          · rw [if_pos h2] at hr
            rw [List.mem_singleton] at hr
            subst hr
            intro hmem
            rcases List.mem_append.mp hmem with h | h
            · exact hxs h
            · rw [List.mem_singleton] at h
              subst h
              exact hxs h1
          · rw [if_neg h2] at hr
            cases hr
        · rw [if_neg h1] at hr
          by_cases h2 : w ∈ keys g
          · rw [if_pos h2] at hr
            by_cases hwx : w = x
            · subst hwx
              rw [hx, rpw_ds_nil] at hr
              cases hr
            · refine ihf (stack ++ [w]) (lookupEdges g w) ?_ r hr
              intro hmem
              rcases List.mem_append.mp hmem with h | h
              · exact hxs h
              · rw [List.mem_singleton] at h
                exact hwx h.symm
          · rw [if_neg h2] at hr
            cases hr
      · exact ihd r hr

theorem searchLoop_avoid (x : String) :
    ∀ (ks : List String) (g : List (String × List String)),
      lookupEdges g x = [] → x ∉ ks → ∀ r ∈ searchLoop g ks, x ∉ r
  | [], _, _, _, _, hr => by cases hr
  | k :: ks, g, hx, hks, r, hr => by
    rcases List.mem_append.mp hr with hr | hr
    · unfold parse_withs at hr
      split at hr
      · refine rpw_avoid g x hx _ [k] _ ?_ r hr
        intro h
        rw [List.mem_singleton] at h
        subst h
        exact hks (List.mem_cons_self _ _)
      · cases hr
    · refine searchLoop_avoid x ks (clearKey g k)
        (lookupEdges_clearKey_nil g k x hx)
        (fun h => hks (List.mem_cons_of_mem _ h)) r hr

/-! ### Rotation lemmas -/

theorem rotate_append_left (l1 l2 : List String) :
    (l1 ++ l2).rotate l1.length = l2 ++ l1 := by
  rw [List.rotate_eq_drop_append_take (by simp), List.drop_left, List.take_left]

theorem rot1_eq_rotate (c : List String) : rot1 c = c.rotate (c.length - 1) := by
  rcases List.eq_nil_or_concat c with rfl | ⟨l, x, rfl⟩
  · rfl
  · simp only [rot1, List.concat_eq_append, List.getLast?_concat, List.dropLast_concat]
    have hlen : (l ++ [x]).length - 1 = l.length := by simp
    rw [hlen, rotate_append_left l [x]]
    rfl

theorem rotTimes_succ (r : Nat) (c : List String) :
    rotTimes (r + 1) c = rot1 (rotTimes r c) :=
  Function.iterate_succ_apply' rot1 r c

theorem rotTimes_eq_rotate (r : Nat) (c : List String) :
    rotTimes r c = c.rotate (r * (c.length - 1)) := by
  induction r with
  | zero => simp [rotTimes]
  | succ r ih =>
    rw [rotTimes_succ, ih, rot1_eq_rotate, List.length_rotate, List.rotate_rotate]
    congr 1
    ring

theorem rotTimes_length_self (c : List String) : rotTimes c.length c = c := by
  rw [rotTimes_eq_rotate, Nat.mul_comm, ← List.rotate_mod, Nat.mul_mod_left,
    List.rotate_zero]

theorem isRotated_rotTimes (r : Nat) (c : List String) :
    List.IsRotated c (rotTimes r c) := by
  rw [rotTimes_eq_rotate]
  exact ⟨r * (c.length - 1), rfl⟩

theorem findRot_some {ts cs : List String} {r : Nat} (h : findRot ts cs = some r) :
    rotTimes r ts = cs := by
  unfold findRot at h
  have hp := (List.find?_eq_some.mp h).1
  exact eq_of_beq hp

theorem isRotated_of_findRot_some {ts cs : List String} {r : Nat}
    (h : findRot ts cs = some r) : List.IsRotated ts cs := by
  rw [← findRot_some h]
  exact isRotated_rotTimes r ts

theorem findRot_eq_none_of_not_isRotated {ts cs : List String}
    (h : ¬ List.IsRotated ts cs) : findRot ts cs = none := by
  cases hf : findRot ts cs with
  | none => rfl
  | some r => exact absurd (isRotated_of_findRot_some hf) h

theorem set_get_self : ∀ (l : List (List String)) (i : Nat) (h : i < l.length),
    l.set i (l.get ⟨i, h⟩) = l
  | [], i, h => by cases h
  | a :: l, 0, _ => rfl
  | a :: l, i + 1, h => by
    show a :: l.set i (l.get ⟨i, _⟩) = a :: l
    rw [set_get_self l i (by simpa using h)]

/-! ### First tidy pass -/

theorem tidy1Go_subset : ∀ (fuel : Nat) (l : List (List String)) (i : Nat),
    ∀ y ∈ tidy1Go fuel l i, y ∈ l
  | 0, _, _, _, hy => hy
  | fuel + 1, l, i, y, hy => by
    unfold tidy1Go at hy
    split at hy
    · split at hy
      · exact List.mem_of_mem_erase (tidy1Go_subset fuel _ _ y hy)
      · exact tidy1Go_subset fuel l (i + 1) y hy
    · exact hy

theorem tidy1Go_id : ∀ (fuel : Nat) (l : List (List String)) (i : Nat),
    (∀ cs ∈ l, cs.head? = cs.getLast?) → tidy1Go fuel l i = l
  | 0, _, _, _ => rfl
  | fuel + 1, l, i, h => by
    unfold tidy1Go
    split
    · next hlt =>
      rw [if_neg (not_not_intro (h _ (List.get_mem l i hlt)))]
      exact tidy1Go_id fuel l (i + 1) h
    · rfl

theorem tidy1_subset (l : List (List String)) : ∀ y ∈ tidy1 l, y ∈ l :=
  tidy1Go_subset l.length l 0

theorem tidy1_id (l : List (List String)) (h : ∀ cs ∈ l, cs.head? = cs.getLast?) :
    tidy1 l = l :=
  tidy1Go_id l.length l 0 h

/-! ### Rotation dedup pass -/

theorem tidy2Inner_origin (l0 : List (List String)) :
    ∀ (fuel : Nat) (csVal : List String) (l : List (List String)) (j : Nat),
      (∀ y ∈ l, ∃ x ∈ l0, List.IsRotated x y) →
      ∀ y ∈ tidy2Inner csVal fuel l j, ∃ x ∈ l0, List.IsRotated x y
  | 0, _, _, _, hl, _, hy => hl _ hy
  | fuel + 1, csVal, l, j, hl, y, hy => by
    unfold tidy2Inner at hy
    split at hy
    · next h =>
      split at hy
      · exact tidy2Inner_origin l0 fuel csVal l (j + 1) hl y hy
      · split at hy
        · next r hm =>
          refine tidy2Inner_origin l0 fuel csVal _ (j + 1) ?_ y hy
          intro z hz
          rcases List.mem_or_eq_of_mem_set (List.mem_of_mem_erase hz) with hz2 | rfl
          · exact hl z hz2
          · obtain ⟨x, hx, hxr⟩ := hl _ (List.get_mem l j h)
            exact ⟨x, hx, hxr.trans (isRotated_rotTimes r _)⟩
        · next hm =>
          refine tidy2Inner_origin l0 fuel csVal _ (j + 1) ?_ y hy
          intro z hz
          rcases List.mem_or_eq_of_mem_set hz with hz2 | rfl
          · exact hl z hz2
          · obtain ⟨x, hx, hxr⟩ := hl _ (List.get_mem l j h)
            exact ⟨x, hx, hxr.trans (isRotated_rotTimes _ _)⟩
    · exact hl _ hy

theorem tidy2Outer_origin (l0 : List (List String)) :
    ∀ (fuel : Nat) (l : List (List String)) (i : Nat),
      (∀ y ∈ l, ∃ x ∈ l0, List.IsRotated x y) →
      ∀ y ∈ tidy2Outer fuel l i, ∃ x ∈ l0, List.IsRotated x y
  | 0, _, _, hl, _, hy => hl _ hy
  | fuel + 1, l, i, hl, y, hy => by
    unfold tidy2Outer at hy
    split at hy
    · exact tidy2Outer_origin l0 fuel _ (i + 1)
        (tidy2Inner_origin l0 l.length _ l 0 hl) y hy
    · exact hl _ hy

/-- Every entry surviving the dedup pass is a rotation of an entry of
the input list. -/
theorem tidy2_origin (l : List (List String)) :
    ∀ y ∈ tidy2 l, ∃ x ∈ l, List.IsRotated x y :=
  tidy2Outer_origin l l.length l 0 (fun y hy => ⟨y, hy, List.IsRotated.refl y⟩)

theorem tidy2Inner_id :
    ∀ (fuel : Nat) (csVal : List String) (l : List (List String)) (j : Nat),
      csVal ∈ l →
      (∀ a b : Fin l.length, a ≠ b → ¬ List.IsRotated (l.get a) (l.get b)) →
      tidy2Inner csVal fuel l j = l
  | 0, _, _, _, _, _ => rfl
  | fuel + 1, csVal, l, j, hcs, hQ => by
    unfold tidy2Inner
    split
    · next h =>
      by_cases hts : l.get ⟨j, h⟩ = csVal
      · rw [if_pos hts]
        exact tidy2Inner_id fuel csVal l (j + 1) hcs hQ
      · rw [if_neg hts]
        have hnone : findRot (l.get ⟨j, h⟩) csVal = none := by
          apply findRot_eq_none_of_not_isRotated
          intro hrot
          obtain ⟨n, hn⟩ := List.mem_iff_get.mp hcs
          by_cases hjn : (⟨j, h⟩ : Fin l.length) = n
          · exact hts (by rw [hjn, hn])
          · exact hQ ⟨j, h⟩ n hjn (by rw [hn]; exact hrot)
        simp only [hnone]
        rw [rotTimes_length_self, set_get_self]
        exact tidy2Inner_id fuel csVal l (j + 1) hcs hQ
    · rfl

theorem tidy2Outer_id :
    ∀ (fuel : Nat) (l : List (List String)) (i : Nat),
      (∀ a b : Fin l.length, a ≠ b → ¬ List.IsRotated (l.get a) (l.get b)) →
      tidy2Outer fuel l i = l
  | 0, _, _, _ => rfl
  | fuel + 1, l, i, hQ => by
    unfold tidy2Outer
    split
    · next h =>
      rw [tidy2Inner_id l.length _ l 0 (List.get_mem l i h) hQ]
      exact tidy2Outer_id fuel l (i + 1) hQ
    · rfl

/-- The dedup pass leaves a list with no two rotation-equivalent
entries at distinct positions entirely unchanged. -/
theorem tidy2_id (l : List (List String))
    (hQ : ∀ a b : Fin l.length, a ≠ b → ¬ List.IsRotated (l.get a) (l.get b)) :
    tidy2 l = l :=
  tidy2Outer_id l.length l 0 hQ

theorem count_set_of_ne (v : List String) :
    ∀ (l : List (List String)) (j : Nat) (x : List String) (h : j < l.length),
      x ≠ v → l.get ⟨j, h⟩ ≠ v → (l.set j x).count v = l.count v
  | [], j, _, h, _, _ => by cases h
  | a :: l, 0, x, _, hx, ha => by
    show (x :: l).count v = (a :: l).count v
    simp [List.count_cons, hx, (by simpa using ha : a ≠ v)]
  | a :: l, j + 1, x, h, hx, ha => by
    show (a :: l.set j x).count v = (a :: l).count v
    rw [List.count_cons, List.count_cons,
      count_set_of_ne v l j x (by simpa using h) hx ha]

theorem tidy2Inner_count (v : List String) :
    ∀ (fuel : Nat) (csVal : List String) (l : List (List String)) (j : Nat),
      (csVal = v ∨ ¬ List.IsRotated csVal v) →
      (∀ x ∈ l, List.IsRotated x v → x = v) →
      (tidy2Inner csVal fuel l j).count v = l.count v ∧
        ∀ x ∈ tidy2Inner csVal fuel l j, List.IsRotated x v → x = v
  | 0, _, _, _, _, hNQ => ⟨rfl, hNQ⟩
  | fuel + 1, csVal, l, j, hcs, hNQ => by
    unfold tidy2Inner
    split
    · next h =>
      by_cases hts : l.get ⟨j, h⟩ = csVal
      · rw [if_pos hts]
        exact tidy2Inner_count v fuel csVal l (j + 1) hcs hNQ
      · rw [if_neg hts]
        cases hm : findRot (l.get ⟨j, h⟩) csVal with
        | none =>
          simp only [hm]
          rw [rotTimes_length_self, set_get_self]
          exact tidy2Inner_count v fuel csVal l (j + 1) hcs hNQ
        | some r =>
          simp only [hm]
          have hrot : List.IsRotated (l.get ⟨j, h⟩) csVal :=
            isRotated_of_findRot_some hm
          rcases hcs with rfl | hncs
          · exact absurd (hNQ _ (List.get_mem l j h) hrot) hts
          · have htsv : ¬ List.IsRotated (l.get ⟨j, h⟩) v :=
              fun hx => hncs (hrot.symm.trans hx)
            have htsv' : l.get ⟨j, h⟩ ≠ v := fun he => htsv (by rw [he])
            have hcv : csVal ≠ v := fun he => hncs (by rw [he])
            rw [findRot_some hm]
            have hNQ2 : ∀ x ∈ (l.set j csVal).erase csVal,
                List.IsRotated x v → x = v := by
              intro x hx hxr
              rcases List.mem_or_eq_of_mem_set (List.mem_of_mem_erase hx) with hx3 | rfl
              · exact hNQ x hx3 hxr
              · exact absurd hxr hncs
            obtain ⟨hcnt, hNQ3⟩ :=
              tidy2Inner_count v fuel csVal ((l.set j csVal).erase csVal) (j + 1)
                (Or.inr hncs) hNQ2
            refine ⟨?_, hNQ3⟩
            rw [hcnt, List.count_erase_of_ne (Ne.symm hcv),
              count_set_of_ne v l j csVal h hcv htsv']
    · exact ⟨rfl, hNQ⟩

theorem tidy2Outer_count (v : List String) :
    ∀ (fuel : Nat) (l : List (List String)) (i : Nat),
      (∀ x ∈ l, List.IsRotated x v → x = v) →
      (tidy2Outer fuel l i).count v = l.count v ∧
        ∀ x ∈ tidy2Outer fuel l i, List.IsRotated x v → x = v
  | 0, _, _, hNQ => ⟨rfl, hNQ⟩
  | fuel + 1, l, i, hNQ => by
    unfold tidy2Outer
    split
    · next h =>
      have hcs : l.get ⟨i, h⟩ = v ∨ ¬ List.IsRotated (l.get ⟨i, h⟩) v := by
        by_cases hr : List.IsRotated (l.get ⟨i, h⟩) v
        · exact Or.inl (hNQ _ (List.get_mem l i h) hr)
        · exact Or.inr hr
      obtain ⟨hcnt, hNQ2⟩ := tidy2Inner_count v l.length _ l 0 hcs hNQ
      obtain ⟨hcnt2, hNQ3⟩ := tidy2Outer_count v fuel _ (i + 1) hNQ2
      exact ⟨by rw [hcnt2, hcnt], hNQ3⟩
    · exact ⟨rfl, hNQ⟩

/-- The dedup pass preserves the number of occurrences of a value no
other entry is rotation-equivalent to. -/
theorem tidy2_count (l : List (List String)) (v : List String)
    (hNQ : ∀ x ∈ l, List.IsRotated x v → x = v) :
    (tidy2 l).count v = l.count v :=
  (tidy2Outer_count v l.length l 0 hNQ).1

theorem searchLoop_length :
    ∀ (ks : List String) (g : List (String × List String)),
      (∀ e ∈ g, e.2.Nodup ∧ e.1 ∉ e.2) → ∀ r ∈ searchLoop g ks, 3 ≤ r.length
  | [], _, _, _, hr => by cases hr
  | k :: ks, g, hWF, r, hr => by
    rcases List.mem_append.mp hr with hr | hr
    · unfold parse_withs at hr
      split at hr
      · refine rpw_length g _ [k] _ (by simp) (Or.inr ?_) r hr
        exact lookupEdges_no_self g (fun e he => (hWF e he).2) k
      · cases hr
    · exact searchLoop_length ks (clearKey g k) (clearKey_entry_props g k hWF) r hr

/-- C4: under the §3 invariants, every cycle in the final result of
`scan` is closed (first element equals last) and has length at least
three: at least two distinct units plus the repeated endpoint. -/
theorem c4_final_cycles_closed (g : List (String × List String))
    (hWF : WFGraph g) :
    ∀ c ∈ scan_pipeline g, c.head? = c.getLast? ∧ 3 ≤ c.length := by
  intro c hc
  unfold scan_pipeline at hc
  rcases List.mem_map.mp hc with ⟨c0, hc0, rfl⟩
  obtain ⟨x, hx, hxr⟩ := tidy2_origin _ c0 hc0
  rcases List.mem_map.mp hx with ⟨r, hr, rfl⟩
  have hrrec : r ∈ scan_records g := tidy1_subset _ r hr
  have hlen : 3 ≤ r.length := searchLoop_length (keys g) g hWF.2 r hrrec
  have hld : r.dropLast.length = r.length - 1 := List.length_dropLast r
  have hlc0 : r.dropLast.length = c0.length := hxr.perm.length_eq
  have h2 : 2 ≤ c0.length := by omega
  have hc0ne : c0 ≠ [] := by
    intro h
    rw [h] at h2
    simp at h2
  constructor
  · rw [List.getLast?_concat, List.head?_append_of_ne_nil _ hc0ne,
      head?_of_ne_nil hc0ne]
  · rw [List.length_append, List.length_singleton]
    omega

theorem c4_final_cycles_closed_witness :
    WFGraph [("a", ["b"]), ("b", ["a"])] ∧
      ["a", "b", "a"] ∈ scan_pipeline [("a", ["b"]), ("b", ["a"])] ∧
      ((["a", "b", "a"] : List String).head? = (["a", "b", "a"] : List String).getLast? ∧
        3 ≤ (["a", "b", "a"] : List String).length) :=
  ⟨by decide, by decide,
    c4_final_cycles_closed [("a", ["b"]), ("b", ["a"])] (by decide) ["a", "b", "a"]
      (by decide)⟩

/-- C10 fails as stated: on the core list `[[b,a],[a,b],[a,b]]` the
entries at positions 1 and 2 are element-wise equal, yet the dedup pass
returns a list containing the value only once.  The rotation-equivalent
entry `[b,a]` first rotates into `[a,b]` and `remove` strikes the first
value-equal element, consuming one of the exact duplicates. -/
theorem c10_exact_duplicates_lost :
    ([["b", "a"], ["a", "b"], ["a", "b"]] : List (List String)).count ["a", "b"] = 2 ∧
      tidy2 [["b", "a"], ["a", "b"], ["a", "b"]] = [["a", "b"]] ∧
      (tidy2 [["b", "a"], ["a", "b"], ["a", "b"]]).count ["a", "b"] = 1 := by
  decide

/-- C10 amended: if the list handed to the rotation-deduplication pass
contains a value twice (exact duplicates) and no entry of the list is a
rotation-equivalent-but-different sequence, then the pass removes
neither duplicate: the number of occurrences of that value is
preserved. -/
theorem c10_amended_duplicates_survive (l : List (List String)) (v : List String)
    (hdup : 2 ≤ l.count v)
    (hno : ∀ x ∈ l, List.IsRotated x v → x = v) :
    2 ≤ (tidy2 l).count v ∧ (tidy2 l).count v = l.count v := by
  have h := tidy2_count l v hno
  exact ⟨h ▸ hdup, h⟩

theorem c10_amended_duplicates_survive_witness :
    (2 ≤ ([["a", "b"], ["a", "b"]] : List (List String)).count ["a", "b"]) ∧
      (∀ x ∈ ([["a", "b"], ["a", "b"]] : List (List String)),
        List.IsRotated x ["a", "b"] → x = ["a", "b"]) ∧
      (2 ≤ (tidy2 [["a", "b"], ["a", "b"]]).count ["a", "b"] ∧
        (tidy2 [["a", "b"], ["a", "b"]]).count ["a", "b"] =
          ([["a", "b"], ["a", "b"]] : List (List String)).count ["a", "b"]) :=
  ⟨by decide, by decide,
    c10_amended_duplicates_survive [["a", "b"], ["a", "b"]] ["a", "b"] (by decide)
      (by decide)⟩

/-! ### The finalize step -/

theorem eq_of_mem_keys_nodup :
    ∀ (g : List (String × List String)), (keys g).Nodup →
      ∀ e ∈ g, ∀ e2 ∈ g, e.fst = e2.fst → e = e2
  | [], _, _, he, _, _, _ => by cases he
  | a :: g, hnd, e, he, e2, he2, hfst => by
    rw [keys_cons] at hnd
    have hhead : a.fst ∉ keys g := (List.nodup_cons.mp hnd).1
    have htail : (keys g).Nodup := (List.nodup_cons.mp hnd).2
    rcases List.mem_cons.mp he with he1 | he1
    · rcases List.mem_cons.mp he2 with he2' | he2'
      · rw [he1, he2']
      · exfalso
        apply hhead
        have hfst2 : a.fst = e2.fst := by rw [← he1]; exact hfst
        rw [hfst2]
        exact List.mem_map_of_mem Prod.fst he2'
    · rcases List.mem_cons.mp he2 with he2' | he2'
      · exfalso
        apply hhead
        have hfst2 : a.fst = e.fst := by rw [← he2']; exact hfst.symm
        rw [hfst2]
        exact List.mem_map_of_mem Prod.fst he1
      · exact eq_of_mem_keys_nodup g htail e he1 e2 he2' hfst

theorem lookupEdges_of_mem :
    ∀ (g : List (String × List String)), (keys g).Nodup →
      ∀ e ∈ g, lookupEdges g e.fst = e.snd
  | [], _, _, he => by cases he
  | a :: g, hnd, e, he => by
    rw [keys_cons] at hnd
    have hhead : a.fst ∉ keys g := (List.nodup_cons.mp hnd).1
    have htail : (keys g).Nodup := (List.nodup_cons.mp hnd).2
    rcases List.mem_cons.mp he with rfl | he
    · rw [lookupEdges_cons, if_pos rfl]
    · rw [lookupEdges_cons, if_neg ?_]
      · exact lookupEdges_of_mem g htail e he
      · intro h
        exact hhead (h ▸ List.mem_map_of_mem Prod.fst he)

theorem keys_filter_subset (g : List (String × List String))
    (p : String × List String → Bool) :
    ∀ u ∈ keys (g.filter p), u ∈ keys g := by
  intro u hu
  rcases List.mem_map.mp hu with ⟨e, he, rfl⟩
  exact List.mem_map_of_mem Prod.fst (List.mem_of_mem_filter he)

theorem keys_filter_nodup (g : List (String × List String))
    (p : String × List String → Bool) (hnd : (keys g).Nodup) :
    (keys (g.filter p)).Nodup :=
  List.Nodup.sublist (List.Sublist.map Prod.fst (List.filter_sublist g)) hnd

theorem eraseKey_eq_filter :
    ∀ (g : List (String × List String)), (keys g).Nodup → ∀ (k : String),
      eraseKey g k = g.filter (fun e => !(e.fst == k))
  | [], _, _ => rfl
  | a :: g, hnd, k => by
    rw [keys_cons] at hnd
    have hhead : a.fst ∉ keys g := (List.nodup_cons.mp hnd).1
    have htail : (keys g).Nodup := (List.nodup_cons.mp hnd).2
    unfold eraseKey
    by_cases ha : a.fst = k
    · rw [List.eraseP_cons_of_pos (by simpa using ha), List.filter_cons_of_neg
        (by simpa using ha)]
      symm
      rw [List.filter_eq_self]
      intro e he
      simp only [Bool.not_eq_true', beq_eq_false_iff_ne, ne_eq]
      intro hek
      exact hhead (by rw [← ha] at hek; exact hek ▸ List.mem_map_of_mem Prod.fst he)
    · rw [List.eraseP_cons_of_neg (by simpa using ha), List.filter_cons_of_pos
        (by simpa using ha)]
      exact congrArg (a :: ·) (eraseKey_eq_filter g htail k)

theorem foldl_eraseKey_eq_filter :
    ∀ (ks : List String) (g : List (String × List String)), (keys g).Nodup →
      ks.foldl eraseKey g = g.filter (fun e => decide (e.fst ∉ ks))
  | [], g, _ => by
    rw [List.foldl_nil]
    symm
    rw [List.filter_eq_self]
    intro e _
    simp
  | k :: ks, g, hnd => by
    rw [List.foldl_cons, foldl_eraseKey_eq_filter ks (eraseKey g k) ?_,
      eraseKey_eq_filter g hnd k, List.filter_filter]
    · apply List.filter_congr
      intro e _
      simp only [List.mem_cons, Bool.not_eq_true', beq_eq_false_iff_ne, ne_eq,
        Bool.and_eq_true, decide_eq_true_eq]
      rcases Decidable.em (e.fst = k) with h | h <;>
        rcases Decidable.em (e.fst ∈ ks) with h2 | h2 <;>
        simp [h, h2]
    · rw [eraseKey_eq_filter g hnd k]
      exact keys_filter_nodup g _ hnd

theorem finalize_eq_filter (g : List (String × List String))
    (hnd : (keys g).Nodup) :
    finalize g = g.filter (fun e => !e.snd.isEmpty) := by
  unfold finalize
  rw [foldl_eraseKey_eq_filter _ g hnd]
  apply List.filter_congr
  intro e he
  have : e.fst ∈ (g.filter (fun e => e.snd.isEmpty)).map Prod.fst ↔
      e.snd.isEmpty = true := by
    constructor
    · intro h
      rcases List.mem_map.mp h with ⟨e2, he2, hfst⟩
      have he2g := List.mem_of_mem_filter he2
      have he2empty := List.of_mem_filter he2
      rw [eq_of_mem_keys_nodup g hnd e he e2 he2g hfst.symm]
      exact he2empty
    · intro h
      exact List.mem_map_of_mem Prod.fst (List.mem_filter.mpr ⟨he, h⟩)
  rcases Decidable.em (e.snd.isEmpty = true) with h | h <;>
    simp [h, this]

theorem lookupEdges_finalize (g : List (String × List String))
    (hnd : (keys g).Nodup) (u : String) :
    lookupEdges (finalize g) u = lookupEdges g u := by
  rw [finalize_eq_filter g hnd]
  induction g with
  | nil => rfl
  | cons e g ih =>
    rw [keys_cons] at hnd
    have hhead : e.fst ∉ keys g := (List.nodup_cons.mp hnd).1
    have htail : (keys g).Nodup := (List.nodup_cons.mp hnd).2
    by_cases hemp : e.snd.isEmpty
    · rw [List.filter_cons_of_neg (by simpa using hemp), lookupEdges_cons]
      by_cases heu : e.fst = u
      · rw [if_pos heu]
        have h1 : u ∉ keys (g.filter (fun e => !e.snd.isEmpty)) :=
          fun h => hhead (heu ▸ keys_filter_subset g _ u h)
        rw [lookupEdges_eq_nil_of_not_mem_keys _ u h1,
          List.isEmpty_iff.mp hemp]
      · rw [if_neg heu]
        exact ih htail
    · rw [List.filter_cons_of_pos (by simpa using hemp), lookupEdges_cons,
        lookupEdges_cons]
      by_cases heu : e.fst = u
      · rw [if_pos heu, if_pos heu]
      · rw [if_neg heu, if_neg heu]
        exact ih htail

theorem keys_finalize (g : List (String × List String))
    (hnd : (keys g).Nodup) (u : String) :
    u ∈ keys (finalize g) ↔ u ∈ keys g ∧ lookupEdges g u ≠ [] := by
  rw [finalize_eq_filter g hnd]
  constructor
  · intro h
    rcases List.mem_map.mp h with ⟨e, he, rfl⟩
    have heg := List.mem_of_mem_filter he
    have hne := List.of_mem_filter he
    refine ⟨List.mem_map_of_mem Prod.fst heg, ?_⟩
    rw [lookupEdges_of_mem g hnd e heg]
    intro hnil
    rw [hnil] at hne
    simp at hne
  · rintro ⟨hu, hne⟩
    rcases lookupEdges_entry g u with h | ⟨e, he, hfst, hsnd⟩
    · exact absurd h hne
    · have hf : e.snd.isEmpty = false := by
        apply Bool.eq_false_iff.mpr
        intro ht
        apply hne
        rw [← hsnd]
        exact List.isEmpty_iff.mp ht
      have hmem : e ∈ g.filter (fun e => !e.snd.isEmpty) :=
        List.mem_filter.mpr ⟨he, by simp [hf]⟩
      exact hfst ▸ List.mem_map_of_mem Prod.fst hmem

/-! ### Fuel stabilization for the search -/

theorem length_filter_mono {α : Type} (p q : α → Bool) :
    ∀ (l : List α), (∀ x ∈ l, q x = true → p x = true) →
      (l.filter q).length ≤ (l.filter p).length
  | [], _ => Nat.le_refl 0
  | a :: l, h => by
    have htail := length_filter_mono p q l (fun x hx => h x (List.mem_cons_of_mem a hx))
    by_cases hq : q a = true
    · rw [List.filter_cons_of_pos hq,
        List.filter_cons_of_pos (h a (List.mem_cons_self a l) hq)]
      simpa using htail
    · rw [List.filter_cons_of_neg (by simpa using hq)]
      by_cases hp : p a = true
      · rw [List.filter_cons_of_pos hp]
        exact Nat.le_trans htail (by simp)
      · rw [List.filter_cons_of_neg (by simpa using hp)]
        exact htail

theorem length_filter_lt {α : Type} (p q : α → Bool) :
    ∀ (l : List α), (∀ x ∈ l, q x = true → p x = true) →
      ∀ w ∈ l, p w = true → q w = false →
        (l.filter q).length < (l.filter p).length
  | [], _, _, hw, _, _ => by cases hw
  | a :: l, h, w, hw, hpw, hqw => by
    have hmono := length_filter_mono p q l (fun x hx => h x (List.mem_cons_of_mem a hx))
    rcases List.mem_cons.mp hw with rfl | hw
    · rw [List.filter_cons_of_neg (by simp [hqw]), List.filter_cons_of_pos hpw]
      exact Nat.lt_succ_of_le hmono
    · have hlt := length_filter_lt p q l
        (fun x hx => h x (List.mem_cons_of_mem a hx)) w hw hpw hqw
      by_cases hq : q a = true
      · rw [List.filter_cons_of_pos hq,
          List.filter_cons_of_pos (h a (List.mem_cons_self a l) hq)]
        simpa using hlt
      · rw [List.filter_cons_of_neg (by simpa using hq)]
        by_cases hp : p a = true
        · rw [List.filter_cons_of_pos hp]
          exact Nat.lt_succ_of_lt hlt
        · rw [List.filter_cons_of_neg (by simpa using hp)]
          exact hlt

/-- The number of keys not yet on the stack: the measure that bounds
the remaining recursion depth of the search. -/
def cnt (g : List (String × List String)) (stack : List String) : Nat :=
  ((keys g).filter (fun x => decide (x ∉ stack))).length

theorem cnt_push_lt (g : List (String × List String)) (stack : List String)
    (w : String) (hw : w ∈ keys g) (hws : w ∉ stack) :
    cnt g (stack ++ [w]) < cnt g stack := by
  apply length_filter_lt
  · intro x _ hx
    simp only [decide_eq_true_eq] at hx ⊢
    intro hmem
    exact hx (List.mem_append_left [w] hmem)
  · exact hw
  · simp [hws]
  · simp

theorem cnt_le (g : List (String × List String)) (stack : List String) :
    cnt g stack ≤ g.length := by
  calc cnt g stack ≤ (keys g).length := List.length_filter_le _ _
  _ = g.length := List.length_map g Prod.fst

theorem rpw_fuel_succ (g : List (String × List String)) :
    ∀ (f : Nat) (stack ds : List String), cnt g stack < f →
      rpw g f stack ds = rpw g (f + 1) stack ds := by
  intro f
  induction f with
  | zero =>
    intro stack ds h
    cases h
  | succ f ihf =>
    intro stack ds h
    induction ds with
    | nil => rw [rpw_nil, rpw_nil]
    | cons w ds ihd =>
      rw [rpw_cons, rpw_cons, ihd]
      by_cases h1 : w ∈ stack
      · rw [if_pos h1, if_pos h1]
      · rw [if_neg h1, if_neg h1]
        by_cases h2 : w ∈ keys g
        · rw [if_pos h2, if_pos h2,
            ihf (stack ++ [w]) (lookupEdges g w)
              (Nat.lt_of_lt_of_le (cnt_push_lt g stack w h2 h1) (Nat.lt_succ_iff.mp h))]
        · rw [if_neg h2, if_neg h2]

theorem rpw_fuel_ge (g : List (String × List String)) (f0 : Nat)
    (stack ds : List String) (hc : cnt g stack < f0) :
    ∀ (f : Nat), f0 ≤ f → rpw g f stack ds = rpw g f0 stack ds := by
  intro f hle
  induction f with
  | zero =>
    cases Nat.le_zero.mp hle
    rfl
  | succ f ihf =>
    rcases Nat.lt_or_ge f0 (f + 1) with h | h
    · have hf0f : f0 ≤ f := Nat.lt_succ_iff.mp h
      rw [← rpw_fuel_succ g f stack ds (Nat.lt_of_lt_of_le hc hf0f)]
      exact ihf hf0f
    · have : f0 = f + 1 := Nat.le_antisymm hle h
      rw [this]

/-- Two graphs with the same lookup function (in particular a graph and
the same graph with empty-list keys added or removed) drive the search
identically. -/
def DepsEq (g g2 : List (String × List String)) : Prop :=
  ∀ u, lookupEdges g u = lookupEdges g2 u

theorem rpw_depsEq (g g2 : List (String × List String)) (h : DepsEq g g2) :
    ∀ (f : Nat) (stack ds : List String), rpw g f stack ds = rpw g2 f stack ds := by
  intro f
  induction f with
  | zero => intro stack ds; rw [rpw_zero, rpw_zero]
  | succ f ihf =>
    intro stack ds
    induction ds with
    | nil => rw [rpw_nil, rpw_nil]
    | cons w ds ihd =>
      rw [rpw_cons, rpw_cons, ihd]
      by_cases h1 : w ∈ stack
      · rw [if_pos h1, if_pos h1]
      · rw [if_neg h1, if_neg h1]
        by_cases hg : w ∈ keys g <;> by_cases hg2 : w ∈ keys g2
        · rw [if_pos hg, if_pos hg2, ihf, h w]
        · rw [if_pos hg, if_neg hg2]
          have hnil : lookupEdges g w = [] := by
            rw [h w]
            exact lookupEdges_eq_nil_of_not_mem_keys g2 w hg2
          rw [hnil, rpw_ds_nil]
        · rw [if_neg hg, if_pos hg2]
          have hnil : lookupEdges g2 w = [] := by
            rw [← h w]
            exact lookupEdges_eq_nil_of_not_mem_keys g w hg
          rw [hnil, rpw_ds_nil]
        · rw [if_neg hg, if_neg hg2]

theorem parse_withs_depsEq (g g2 : List (String × List String))
    (h : DepsEq g g2) (k : String) : parse_withs g k = parse_withs g2 k := by
  unfold parse_withs
  by_cases hg : k ∈ keys g <;> by_cases hg2 : k ∈ keys g2
  · rw [if_pos hg, if_pos hg2,
      ← rpw_fuel_ge g (g.length + 1) [k] (lookupEdges g k)
        (Nat.lt_succ_of_le (cnt_le g [k])) (g.length + g2.length + 2) (by omega),
      rpw_depsEq g g2 h, h k,
      rpw_fuel_ge g2 (g2.length + 1) [k] (lookupEdges g2 k)
        (Nat.lt_succ_of_le (cnt_le g2 [k])) (g.length + g2.length + 2) (by omega)]
  · rw [if_pos hg, if_neg hg2]
    have hnil : lookupEdges g k = [] := by
      rw [h k]
      exact lookupEdges_eq_nil_of_not_mem_keys g2 k hg2
    rw [hnil, rpw_ds_nil]
  · rw [if_neg hg, if_pos hg2]
    have hnil : lookupEdges g2 k = [] := by
      rw [← h k]
      exact lookupEdges_eq_nil_of_not_mem_keys g k hg
    rw [hnil, rpw_ds_nil]
  · rw [if_neg hg, if_neg hg2]

theorem searchLoop_skip_empty :
    ∀ (ks : List String) (g g2 : List (String × List String)),
      DepsEq g g2 → ks.Nodup →
      searchLoop g2 (ks.filter (fun k => !(lookupEdges g k).isEmpty)) =
        searchLoop g ks
  | [], _, _, _, _ => rfl
  | k :: ks, g, g2, h, hnd => by
    have hknotmem : k ∉ ks := (List.nodup_cons.mp hnd).1
    have hndtail : ks.Nodup := (List.nodup_cons.mp hnd).2
    have hfiltereq : ks.filter (fun x => !(lookupEdges g x).isEmpty) =
        ks.filter (fun x => !(lookupEdges (clearKey g k) x).isEmpty) := by
      apply List.filter_congr
      intro x hx
      have hxk : x ≠ k := fun he => hknotmem (by rw [← he]; exact hx)
      rw [lookupEdges_clearKey_ne g k x hxk]
    by_cases hk : (lookupEdges g k).isEmpty
    · rw [List.filter_cons_of_neg (by simpa using hk)]
      show searchLoop g2 _ = parse_withs g k ++ searchLoop (clearKey g k) ks
      have hpw : parse_withs g k = [] := by
        unfold parse_withs
        split
        · rw [List.isEmpty_iff.mp hk, rpw_ds_nil]
        · rfl
      have hdeps3 : DepsEq (clearKey g k) g2 := by
        intro u
        by_cases huk : u = k
        · subst huk
          rw [lookupEdges_clearKey_self, ← h u, List.isEmpty_iff.mp hk]
        · rw [lookupEdges_clearKey_ne g k u huk, h u]
      rw [hpw, List.nil_append, hfiltereq]
      exact searchLoop_skip_empty ks (clearKey g k) g2 hdeps3 hndtail
    · rw [List.filter_cons_of_pos (by simpa using hk)]
      show parse_withs g2 k ++ searchLoop (clearKey g2 k) _ =
        parse_withs g k ++ searchLoop (clearKey g k) ks
      have hdeps2 : DepsEq (clearKey g k) (clearKey g2 k) := by
        intro u
        by_cases huk : u = k
        · subst huk
          rw [lookupEdges_clearKey_self, lookupEdges_clearKey_self]
        · rw [lookupEdges_clearKey_ne g k u huk,
            lookupEdges_clearKey_ne g2 k u huk, h u]
      rw [parse_withs_depsEq g g2 h k, hfiltereq,
        searchLoop_skip_empty ks (clearKey g k) (clearKey g2 k) hdeps2 hndtail]

theorem keys_filter_nonempty_eq :
    ∀ (g : List (String × List String)), (keys g).Nodup →
      keys (g.filter (fun e => !e.snd.isEmpty)) =
        (keys g).filter (fun k => !(lookupEdges g k).isEmpty)
  | [], _ => rfl
  | e :: g, hnd => by
    rw [keys_cons] at hnd
    have hhead : e.fst ∉ keys g := (List.nodup_cons.mp hnd).1
    have htail : (keys g).Nodup := (List.nodup_cons.mp hnd).2
    have ih := keys_filter_nonempty_eq g htail
    have hcongr : (keys g).filter (fun k => !(lookupEdges g k).isEmpty) =
        (keys g).filter (fun k => !(lookupEdges (e :: g) k).isEmpty) := by
      apply List.filter_congr
      intro x hx
      have hxk : e.fst ≠ x := fun he => hhead (by rw [he]; exact hx)
      rw [lookupEdges_cons, if_neg hxk]
    by_cases hemp : e.snd.isEmpty
    · rw [List.filter_cons_of_neg (by simpa using hemp), keys_cons,
        List.filter_cons_of_neg (by simp [lookupEdges_cons, hemp]), ih, hcongr]
    · rw [List.filter_cons_of_pos (by simpa using hemp), keys_cons, keys_cons,
        List.filter_cons_of_pos (by simp [lookupEdges_cons, hemp]), ih, hcongr]

theorem keys_finalize_eq (g : List (String × List String))
    (hnd : (keys g).Nodup) :
    keys (finalize g) = (keys g).filter (fun k => !(lookupEdges g k).isEmpty) := by
  rw [finalize_eq_filter g hnd]
  exact keys_filter_nonempty_eq g hnd

/-- C6: the finalize step removes exactly the units whose dependency
list is empty — the lookup function is unchanged, and a key survives
iff it was present with a nonempty list — and the cycle search over the
finalized graph produces exactly the records of the search over the
unfinalized graph. -/
theorem c6_finalize_removes_empties_preserving_cycles
    (g : List (String × List String)) (hnd : (keys g).Nodup) :
    (∀ u, lookupEdges (finalize g) u = lookupEdges g u) ∧
      (∀ u, u ∈ keys (finalize g) ↔ u ∈ keys g ∧ lookupEdges g u ≠ []) ∧
      scan_records (finalize g) = scan_records g := by
  refine ⟨lookupEdges_finalize g hnd, keys_finalize g hnd, ?_⟩
  unfold scan_records
  have hdeps : DepsEq g (finalize g) :=
    fun u => (lookupEdges_finalize g hnd u).symm
  rw [keys_finalize_eq g hnd]
  exact searchLoop_skip_empty (keys g) g (finalize g) hdeps hnd

theorem c6_finalize_removes_empties_preserving_cycles_witness :
    (keys [("a", ["b"]), ("c", ([] : List String)), ("b", ["a"])]).Nodup ∧
      ((∀ u, lookupEdges (finalize [("a", ["b"]), ("c", []), ("b", ["a"])]) u =
          lookupEdges [("a", ["b"]), ("c", []), ("b", ["a"])] u) ∧
        (∀ u, u ∈ keys (finalize [("a", ["b"]), ("c", []), ("b", ["a"])]) ↔
          u ∈ keys [("a", ["b"]), ("c", []), ("b", ["a"])] ∧
            lookupEdges [("a", ["b"]), ("c", []), ("b", ["a"])] u ≠ []) ∧
        scan_records (finalize [("a", ["b"]), ("c", []), ("b", ["a"])]) =
          scan_records [("a", ["b"]), ("c", []), ("b", ["a"])]) :=
  ⟨by decide,
    c6_finalize_removes_empties_preserving_cycles
      [("a", ["b"]), ("c", []), ("b", ["a"])] (by decide)⟩

/-! ### Distinctness of the records of one search -/

/-- Within one search the records are pairwise distinct, and a record's
walked path determines the dependency, among those of the current node,
through which it was found: the recursion tree visits each stack at
most once (dependency lists have no duplicates), so no record is built
twice. -/
theorem rpw_distinct (g : List (String × List String))
    (hWFdeps : ∀ u, (lookupEdges g u).Nodup) :
    ∀ (fuel : Nat) (stack ds : List String), stack ≠ [] → stack.Nodup → ds.Nodup →
      (rpw g fuel stack ds).Pairwise (fun a b => a ≠ b) ∧
      ∀ r ∈ rpw g fuel stack ds, ∀ t, r = stack ++ t ++ [stack.headI] →
        (t = [] → stack.headI ∈ ds) ∧ ∀ w t2, t = w :: t2 → w ∈ ds := by
  intro fuel
  induction fuel with
  | zero =>
    intro stack ds _ _ _
    constructor
    · rw [rpw_zero]
      exact List.Pairwise.nil
    · intro r hr
      rw [rpw_zero] at hr
      cases hr
  | succ fuel ihf =>
    intro stack ds hne hnd
    induction ds with
    | nil =>
      intro _
      constructor
      · rw [rpw_nil]
        exact List.Pairwise.nil
      · intro r hr
        rw [rpw_nil] at hr
        cases hr
    | cons w ds ihd =>
      intro hdsnd
      have hwds : w ∉ ds := (List.nodup_cons.mp hdsnd).1
      have hdsnd2 : ds.Nodup := (List.nodup_cons.mp hdsnd).2
      obtain ⟨ihd1, ihd2⟩ := ihd hdsnd2
      rw [rpw_cons]
      by_cases h1 : w ∈ stack
      · by_cases h2 : stack.head? = some w
        · rw [if_pos h1, if_pos h2]
          have hw_headI : stack.headI = w := headI_of_head? h2
          constructor
          · rw [List.singleton_append, List.pairwise_cons]
            refine ⟨?_, ihd1⟩
            intro r2 hr2 heq
            have hmem := (ihd2 r2 hr2 []
              (by rw [← heq, hw_headI]; simp)).1 rfl
            rw [hw_headI] at hmem
            exact hwds hmem
          · intro r hr t ht
            rw [List.singleton_append] at hr
            rcases List.mem_cons.mp hr with rfl | hr
            · have h4 : [w] = t ++ [stack.headI] :=
                List.append_cancel_left (by rw [List.append_assoc] at ht; exact ht)
              have ht0 : t = [] := by
                have hlen := congrArg List.length h4
                simp only [List.length_singleton, List.length_append] at hlen
                cases t with
                | nil => rfl
                | cons a t => simp at hlen
              subst ht0
              refine ⟨fun _ => ?_, fun w2 t2 h0 => by cases h0⟩
              rw [hw_headI]
              exact List.mem_cons_self _ _
            · obtain ⟨ha, hb⟩ := ihd2 r hr t ht
              exact ⟨fun h0 => List.mem_cons_of_mem _ (ha h0),
                fun w2 t2 h0 => List.mem_cons_of_mem _ (hb w2 t2 h0)⟩
        · rw [if_pos h1, if_neg h2, List.nil_append]
          refine ⟨ihd1, ?_⟩
          intro r hr t ht
          obtain ⟨ha, hb⟩ := ihd2 r hr t ht
          exact ⟨fun h0 => List.mem_cons_of_mem _ (ha h0),
            fun w2 t2 h0 => List.mem_cons_of_mem _ (hb w2 t2 h0)⟩
      · by_cases h2 : w ∈ keys g
        · rw [if_neg h1, if_pos h2]
          have hstack2ne : stack ++ [w] ≠ [] := by simp
          have hstack2nd : (stack ++ [w]).Nodup := nodup_append_singleton hnd h1
          obtain ⟨ihf1, ihf2⟩ := ihf (stack ++ [w]) (lookupEdges g w) hstack2ne
            hstack2nd (hWFdeps w)
          have hshape : ∀ r ∈ rpw g fuel (stack ++ [w]) (lookupEdges g w),
              ∃ t2, r = stack ++ (w :: t2) ++ [stack.headI] := by
            intro r hr
            obtain ⟨t2, ht2, _⟩ := rpw_shape g fuel (stack ++ [w]) (lookupEdges g w)
              hstack2ne hstack2nd r hr
            refine ⟨t2, ?_⟩
            rw [ht2, headI_append [w] hne]
            simp [List.append_assoc]
          constructor
          · rw [List.pairwise_append]
            refine ⟨ihf1, ihd1, ?_⟩
            intro a ha b hb heq
            obtain ⟨t2, ht2⟩ := hshape a ha
            have hmem := (ihd2 b hb (w :: t2) (by rw [← heq, ht2])).2 w t2 rfl
            exact hwds hmem
          · intro r hr t ht
            rcases List.mem_append.mp hr with hr | hr
            · obtain ⟨t2, ht2⟩ := hshape r hr
              have h3 : stack ++ t ++ [stack.headI] =
                  stack ++ (w :: t2) ++ [stack.headI] := by
                rw [← ht, ← ht2]
              have h4 : t ++ [stack.headI] = (w :: t2) ++ [stack.headI] :=
                List.append_cancel_left
                  (by rw [List.append_assoc, List.append_assoc] at h3; exact h3)
              have hteq : t = w :: t2 := List.append_cancel_right h4
              subst hteq
              constructor
              · intro h0
                exact absurd h0 (List.cons_ne_nil w t2)
              · intro w2 t3 h0
                injection h0 with h5 _
                rw [← h5]
                exact List.mem_cons_self _ _
            · obtain ⟨ha, hb⟩ := ihd2 r hr t ht
              exact ⟨fun h0 => List.mem_cons_of_mem _ (ha h0),
                fun w2 t2 h0 => List.mem_cons_of_mem _ (hb w2 t2 h0)⟩
        · rw [if_neg h1, if_neg h2, List.nil_append]
          refine ⟨ihd1, ?_⟩
          intro r hr t ht
          obtain ⟨ha, hb⟩ := ihd2 r hr t ht
          exact ⟨fun h0 => List.mem_cons_of_mem _ (ha h0),
            fun w2 t2 h0 => List.mem_cons_of_mem _ (hb w2 t2 h0)⟩

theorem headI_mem {l : List String} (h : l ≠ []) : l.headI ∈ l := by
  cases l with
  | nil => exact absurd rfl h
  | cons a t => exact List.mem_cons_self a t

/-- Two rotation-equivalent duplicate free lists sharing their first
element are equal: the aligning rotation must fix the unique occurrence
of the head. -/
theorem isRotated_eq_of_nodup_head (ca cb : List String) (hnd : ca.Nodup)
    (hne : ca ≠ []) (hrot : List.IsRotated ca cb) (hh : ca.headI = cb.headI) :
    ca = cb := by
  obtain ⟨n, hn⟩ := hrot
  have hpos : 0 < ca.length := List.length_pos.mpr hne
  have hm : n % ca.length < ca.length := Nat.mod_lt n hpos
  have hrm : ca.rotate (n % ca.length) = cb := by
    rw [List.rotate_mod]
    exact hn
  have hbne : cb ≠ [] := by
    intro h0
    have hlen := congrArg List.length hrm
    rw [List.length_rotate, h0] at hlen
    simp only [List.length_nil] at hlen
    omega
  have h1 : cb.head? = ca[n % ca.length]? := by
    rw [← hrm]
    exact List.head?_rotate hm
  rw [head?_of_ne_nil hbne, List.getElem?_eq_getElem hm] at h1
  have h2 : cb.headI = ca[n % ca.length] := Option.some.inj h1
  have h3 : ca.headI = ca[0] := by
    cases ca with
    | nil => exact absurd rfl hne
    | cons a t => rfl
  have h4 : ca.get ⟨0, hpos⟩ = ca.get ⟨n % ca.length, hm⟩ := by
    rw [List.get_eq_getElem, List.get_eq_getElem, ← h3, hh, h2]
  have h5 : (⟨0, hpos⟩ : Fin ca.length) = ⟨n % ca.length, hm⟩ :=
    (hnd.get_inj_iff).mp h4
  have h6 : (0 : Nat) = n % ca.length := congrArg Fin.val h5
  rw [← hrm, ← h6, List.rotate_zero]

theorem parse_withs_pairwise (g : List (String × List String))
    (hWFdeps : ∀ u, (lookupEdges g u).Nodup) (k : String) :
    (parse_withs g k).Pairwise
      (fun a b => ¬ List.IsRotated a.dropLast b.dropLast) := by
  have hpw : (parse_withs g k).Pairwise (fun a b => a ≠ b) := by
    unfold parse_withs
    split
    · exact (rpw_distinct g hWFdeps (g.length + 1) [k] (lookupEdges g k)
        (by simp) (List.nodup_singleton k) (hWFdeps k)).1
    · exact List.Pairwise.nil
  refine List.Pairwise.imp_of_mem ?_ hpw
  intro a b ha hb hne hrotab
  obtain ⟨ca, rfl, hha, hnea, hnda⟩ := parse_withs_shape g k a ha
  obtain ⟨cb, rfl, hhb, hneb, _⟩ := parse_withs_shape g k b hb
  rw [List.dropLast_concat, List.dropLast_concat] at hrotab
  have : ca = cb := isRotated_eq_of_nodup_head ca cb hnda hnea hrotab
    (by rw [hha, hhb])
  exact hne (by rw [this])

theorem searchLoop_pairwise :
    ∀ (ks : List String) (g : List (String × List String)),
      (∀ u, (lookupEdges g u).Nodup) → ks.Nodup →
      (searchLoop g ks).Pairwise
        (fun a b => ¬ List.IsRotated a.dropLast b.dropLast)
  | [], _, _, _ => List.Pairwise.nil
  | k :: ks, g, hWFdeps, hnd => by
    have hknotmem : k ∉ ks := (List.nodup_cons.mp hnd).1
    have hndtail : ks.Nodup := (List.nodup_cons.mp hnd).2
    have hWF2 : ∀ u, (lookupEdges (clearKey g k) u).Nodup := by
      intro u
      by_cases huk : u = k
      · subst huk
        rw [lookupEdges_clearKey_self]
        exact List.nodup_nil
      · rw [lookupEdges_clearKey_ne g k u huk]
        exact hWFdeps u
    show (parse_withs g k ++ searchLoop (clearKey g k) ks).Pairwise _
    rw [List.pairwise_append]
    refine ⟨parse_withs_pairwise g hWFdeps k,
      searchLoop_pairwise ks (clearKey g k) hWF2 hndtail, ?_⟩
    intro a ha b hb
    obtain ⟨ca, rfl, hha, hnea, _⟩ := parse_withs_shape g k a ha
    have hkb : k ∉ b := searchLoop_avoid k ks (clearKey g k)
      (lookupEdges_clearKey_self g k) hknotmem b hb
    intro hrot
    rw [List.dropLast_concat] at hrot
    have hkca : k ∈ ca := by
      rw [← hha]
      exact headI_mem hnea
    have hkbd : k ∈ b.dropLast := hrot.mem_iff.mp hkca
    exact hkb ((List.dropLast_sublist b).subset hkbd)

/-- C2: in the final result of `scan` no two cycles are rotations of
one another once their duplicated endpoints are stripped.  Every cycle
containing the earliest-searched of its members is recorded only during
that member's own search and starts with it, distinct records from one
search cannot be aligned by rotation, records of later searches avoid
all earlier start units, and on such a rotation-free record list both
tidy passes act as the identity. -/
theorem c2_no_rotational_duplicates (g : List (String × List String))
    (hWF : WFGraph g) :
    (scan_pipeline g).Pairwise
      (fun a b => ¬ List.IsRotated a.dropLast b.dropLast) := by
  unfold scan_pipeline
  have h1 : tidy1 (scan_records g) = scan_records g := by
    apply tidy1_id
    intro cs hcs
    obtain ⟨core, start, rfl, hh, hne2, _⟩ := searchLoop_shape g (keys g) g cs hcs
    rw [List.getLast?_concat, List.head?_append_of_ne_nil _ hne2,
      head?_of_ne_nil hne2, hh]
  rw [h1]
  have hWFdeps : ∀ u, (lookupEdges g u).Nodup :=
    lookupEdges_nodup g (fun e he => (hWF.2 e he).1)
  have hpw : (scan_records g).Pairwise
      (fun a b => ¬ List.IsRotated a.dropLast b.dropLast) :=
    searchLoop_pairwise (keys g) g hWFdeps hWF.1
  have hcores : ((scan_records g).map List.dropLast).Pairwise
      (fun a b => ¬ List.IsRotated a b) := by
    rw [List.pairwise_map]
    exact hpw
  have h2 : tidy2 ((scan_records g).map List.dropLast) =
      (scan_records g).map List.dropLast := by
    apply tidy2_id
    intro a b hab
    have hget := List.pairwise_iff_get.mp hcores
    rcases Nat.lt_trichotomy a.val b.val with h | h | h
    · exact hget a b (by exact h)
    · exact absurd (Fin.ext h) hab
    · intro hrot
      exact hget b a (by exact h) hrot.symm
  rw [h2, List.pairwise_map]
  refine List.Pairwise.imp ?_ hcores
  intro a b hne3
  rw [List.dropLast_concat, List.dropLast_concat]
  exact hne3

theorem c2_no_rotational_duplicates_witness :
    WFGraph [("a", ["b"]), ("b", ["a", "c"]), ("c", ["b"])] ∧
      (scan_pipeline [("a", ["b"]), ("b", ["a", "c"]), ("c", ["b"])]).Pairwise
        (fun a b => ¬ List.IsRotated a.dropLast b.dropLast) :=
  ⟨by decide,
    c2_no_rotational_duplicates [("a", ["b"]), ("b", ["a", "c"]), ("c", ["b"])]
      (by decide)⟩

/-! ### Completeness of the search -/

theorem rpw_mem_record (g : List (String × List String)) (f : Nat)
    (stack : List String) :
    ∀ (ds : List String) (w : String), w ∈ ds → w ∈ stack →
      stack.head? = some w → stack ++ [w] ∈ rpw g (f + 1) stack ds
  | [], _, hw, _, _ => by cases hw
  | d :: ds, w, hw, hws, hhead => by
    rw [rpw_cons]
    rcases List.mem_cons.mp hw with rfl | hw
    · rw [if_pos hws, if_pos hhead]
      exact List.mem_append_left _ (List.mem_singleton.mpr rfl)
    · exact List.mem_append_right _ (rpw_mem_record g f stack ds w hw hws hhead)

theorem rpw_mem_push (g : List (String × List String)) (f : Nat)
    (stack : List String) :
    ∀ (ds : List String) (w : String) (X : List String), w ∈ ds → w ∉ stack →
      w ∈ keys g → X ∈ rpw g f (stack ++ [w]) (lookupEdges g w) →
      X ∈ rpw g (f + 1) stack ds
  | [], _, _, hw, _, _, _ => by cases hw
  | d :: ds, w, X, hw, hws, hkeys, hX => by
    rw [rpw_cons]
    rcases List.mem_cons.mp hw with rfl | hw
    · rw [if_neg hws, if_pos hkeys]
      exact List.mem_append_left _ hX
    · exact List.mem_append_right _ (rpw_mem_push g f stack ds w X hw hws hkeys hX)

theorem chainMem_append_singleton (g : List (String × List String)) :
    ∀ (l : List String) (x : String), l ≠ [] → chainMem g l →
      x ∈ lookupEdges g (l.getLastD "") → chainMem g (l ++ [x])
  | [], _, h, _, _ => absurd rfl h
  | [a], x, _, _, hx => by
    show x ∈ lookupEdges g a ∧ chainMem g [x]
    exact ⟨hx, trivial⟩
  | a :: b :: t, x, _, hc, hx => by
    obtain ⟨h1, h2⟩ := hc
    show b ∈ lookupEdges g a ∧ chainMem g ((b :: t) ++ [x])
    exact ⟨h1, chainMem_append_singleton g (b :: t) x (by simp) h2 hx⟩

theorem chainMem_edges (g : List (String × List String)) :
    ∀ (l : List String), chainMem g l → ∀ x ∈ l,
      x = l.getLastD "" ∨ lookupEdges g x ≠ []
  | [], _, x, hx => by cases hx
  | [a], _, x, hx => by
    rw [List.mem_singleton] at hx
    exact Or.inl (by rw [hx]; rfl)
  | a :: b :: t, hc, x, hx => by
    obtain ⟨h1, h2⟩ := hc
    rcases List.mem_cons.mp hx with rfl | hx
    · refine Or.inr (fun hnil => ?_)
      rw [hnil] at h1
      exact List.not_mem_nil b h1
    · rcases chainMem_edges g (b :: t) h2 x hx with h | h
      · exact Or.inl (by rw [h]; rfl)
      · exact Or.inr h

theorem cycle_members_edges (g : List (String × List String)) (c : List String)
    (hc : isCycleOf g c) : ∀ x ∈ c, lookupEdges g x ≠ [] := by
  cases c with
  | nil => cases hc
  | cons h t =>
    obtain ⟨_, hchain, hclose⟩ := hc
    intro x hx
    rcases chainMem_edges g (h :: t) hchain x hx with heq | hne
    · rw [heq]
      intro hnil
      rw [show (h :: t).getLastD "" = (h :: t).getLastD h from by
        rw [List.getLastD_cons, List.getLastD_cons]] at hnil
      rw [hnil] at hclose
      exact List.not_mem_nil h hclose
    · exact hne

theorem cycle_subset_keys (g : List (String × List String)) (c : List String)
    (hc : isCycleOf g c) : ∀ x ∈ c, x ∈ keys g :=
  fun x hx => mem_keys_of_lookupEdges_ne_nil g x (cycle_members_edges g c hc x hx)

theorem isCycleOf_rotate_one (g : List (String × List String)) (c : List String)
    (hc : isCycleOf g c) : isCycleOf g (c.rotate 1) := by
  cases c with
  | nil => cases hc
  | cons a rest =>
    cases rest with
    | nil =>
      have h1 : ([a] : List String).rotate 1 = [a] := by
        rw [← List.rotate_mod]
        norm_num
      rw [h1]
      exact hc
    | cons b t =>
      obtain ⟨hnd, hchain, hclose⟩ := hc
      obtain ⟨h1, h2⟩ := hchain
      rw [List.rotate_cons_succ, List.rotate_zero]
      show ((b :: t) ++ [a]).Nodup ∧ chainMem g ((b :: t) ++ [a]) ∧
        b ∈ lookupEdges g (((b :: (t ++ [a]))).getLastD b)
      refine ⟨?_, ?_, ?_⟩
      · exact (List.perm_append_singleton a (b :: t)).symm.nodup hnd
      · refine chainMem_append_singleton g (b :: t) a (by simp) h2 ?_
        rw [show (b :: t).getLastD "" = (a :: b :: t).getLastD a from by
          rw [List.getLastD_cons, List.getLastD_cons, List.getLastD_cons]]
        exact hclose
      · rw [List.getLastD_cons, List.getLastD_concat]
        exact h1

theorem isCycleOf_rotate (g : List (String × List String)) (c : List String)
    (hc : isCycleOf g c) : ∀ (n : Nat), isCycleOf g (c.rotate n)
  | 0 => by
    rw [List.rotate_zero]
    exact hc
  | n + 1 => by
    rw [← List.rotate_rotate]
    exact isCycleOf_rotate_one g (c.rotate n) (isCycleOf_rotate g c hc n)

theorem getLastD_cons_mem : ∀ (t : List String) (h d : String),
    (h :: t).getLastD d ∈ h :: t
  | [], _, _ => List.mem_singleton.mpr rfl
  | b :: t, h, d => by
    rw [List.getLastD_cons]
    exact List.mem_cons_of_mem h (getLastD_cons_mem t b h)

theorem chainMem_clearKey (g : List (String × List String)) (k : String) :
    ∀ (l : List String), (∀ x ∈ l, x ≠ k) → chainMem g l →
      chainMem (clearKey g k) l
  | [], _, _ => trivial
  | [_], _, _ => trivial
  | a :: b :: t, hne, hc => by
    obtain ⟨h1, h2⟩ := hc
    refine ⟨?_, chainMem_clearKey g k (b :: t)
      (fun x hx => hne x (List.mem_cons_of_mem a hx)) h2⟩
    rw [lookupEdges_clearKey_ne g k a (hne a (List.mem_cons_self a _))]
    exact h1

theorem isCycleOf_clearKey (g : List (String × List String)) (k : String)
    (c : List String) (hk : k ∉ c) (hc : isCycleOf g c) :
    isCycleOf (clearKey g k) c := by
  cases c with
  | nil => cases hc
  | cons h t =>
    obtain ⟨hnd, hchain, hclose⟩ := hc
    refine ⟨hnd, ?_, ?_⟩
    · exact chainMem_clearKey g k (h :: t)
        (fun x hx he => hk (by rw [← he]; exact hx)) hchain
    · rw [lookupEdges_clearKey_ne g k _ ?_]
      · exact hclose
      · intro he
        exact hk (by rw [← he]; exact getLastD_cons_mem t h h)

/-- The search from a given stack finds every simple closing path: if
`tail` continues the stack top through fresh units with outgoing edges
and its last unit depends back on the stack bottom, the corresponding
record is produced. -/
theorem rpw_complete (g : List (String × List String)) :
    ∀ (tail : List String) (f : Nat) (stack : List String),
      stack ≠ [] → tail.length < f →
      (∀ x ∈ tail, x ∉ stack) → (∀ x ∈ tail, x ∈ keys g) → tail.Nodup →
      chainMem g (stack.getLastD "" :: tail) →
      stack.headI ∈ lookupEdges g ((stack ++ tail).getLastD "") →
      stack ++ tail ++ [stack.headI] ∈
        rpw g f stack (lookupEdges g (stack.getLastD ""))
  | [], f, stack, hne, hf, _, _, _, _, hclose => by
    cases f with
    | zero => cases hf
    | succ f =>
      rw [List.append_nil] at hclose
      have h := rpw_mem_record g f stack (lookupEdges g (stack.getLastD ""))
        stack.headI hclose (headI_mem hne) (head?_of_ne_nil hne)
      simpa using h
  | w :: rest, f, stack, hne, hf, hdisj, hkeys, hnd, hchain, hclose => by
    cases f with
    | zero => cases hf
    | succ f =>
      obtain ⟨hstep, hchain2⟩ := hchain
      have hwrest : w ∉ rest := (List.nodup_cons.mp hnd).1
      have hndrest : rest.Nodup := (List.nodup_cons.mp hnd).2
      have hlast : (stack ++ [w]).getLastD "" = w := List.getLastD_concat _ _ _
      have hheadI : (stack ++ [w]).headI = stack.headI := headI_append [w] hne
      have ih := rpw_complete g rest f (stack ++ [w]) (by simp)
        (by simpa using hf)
        (fun x hx hmem => by
          rcases List.mem_append.mp hmem with h | h
          · exact hdisj x (List.mem_cons_of_mem w hx) h
          · rw [List.mem_singleton] at h
            exact hwrest (h ▸ hx))
        (fun x hx => hkeys x (List.mem_cons_of_mem w hx)) hndrest
        (by rw [hlast]; exact hchain2)
        (by
          rw [hheadI, List.append_assoc, List.singleton_append]
          exact hclose)
      rw [hlast] at ih
      rw [hheadI] at ih
      apply rpw_mem_push g f stack _ w _ hstep
        (hdisj w (List.mem_cons_self w rest)) (hkeys w (List.mem_cons_self w rest))
      simpa [List.append_assoc] using ih

theorem searchLoop_complete :
    ∀ (ks : List String) (g : List (String × List String)) (c : List String),
      isCycleOf g c → (∀ x ∈ c, x ∈ ks) →
      ∃ r ∈ searchLoop g ks, List.IsRotated r.dropLast c
  | [], g, c, hc, hmem => by
    cases c with
    | nil => cases hc
    | cons h t => cases hmem h (List.mem_cons_self h t)
  | k :: ks, g, c, hc, hmem => by
    by_cases hk : k ∈ c
    · obtain ⟨s, t, rfl⟩ := List.append_of_mem hk
      have hrform : (s ++ k :: t).rotate s.length = (k :: t) ++ s := by
        rw [show (s ++ k :: t : List String) = s ++ ((k :: t) : List String) from rfl]
        exact rotate_append_left s (k :: t)
      have hrotc : isCycleOf g ((k :: t) ++ s) := by
        rw [← hrform]
        exact isCycleOf_rotate g _ hc s.length
      have hsubk : ∀ x ∈ (k :: t) ++ s, x ∈ keys g := cycle_subset_keys g _ hrotc
      obtain ⟨hnd2, hchain2, hclose2⟩ := hrotc
      have hknotin : k ∉ t ++ s := (List.nodup_cons.mp hnd2).1
      have hlenle : ((k :: t) ++ s).length ≤ g.length := by
        calc ((k :: t) ++ s).length ≤ (keys g).length :=
          (List.subperm_of_subset hnd2 hsubk).length_le
        _ = g.length := List.length_map g Prod.fst
      have hrec : [k] ++ (t ++ s) ++ [k] ∈
          rpw g (g.length + 1) [k] (lookupEdges g k) := by
        have h := rpw_complete g (t ++ s) (g.length + 1) [k] (by simp)
          (by simp at hlenle ⊢; omega)
          (fun x hx hmem2 => by
            rw [List.mem_singleton] at hmem2
            exact hknotin (hmem2 ▸ hx))
          (fun x hx => hsubk x (by
            rw [List.cons_append]
            exact List.mem_cons_of_mem k hx))
          (List.nodup_cons.mp hnd2).2
          hchain2
          (by
            rw [show (([k] ++ (t ++ s)).getLastD "" : String) =
              ((k :: (t ++ s)).getLastD k : String) from by
                rw [List.singleton_append, List.getLastD_cons, List.getLastD_cons]]
            exact hclose2)
        simpa using h
      refine ⟨[k] ++ (t ++ s) ++ [k], ?_, ?_⟩
      · apply List.mem_append_left
        unfold parse_withs
        rw [if_pos (hsubk k (List.mem_cons_self k _))]
        exact hrec
      · rw [List.dropLast_concat]
        refine List.IsRotated.symm ?_
        refine ⟨s.length, ?_⟩
        rw [hrform]
        simp
    · have hmem2 : ∀ x ∈ c, x ∈ ks := by
        intro x hx
        rcases List.mem_cons.mp (hmem x hx) with he | h
        · exact absurd (he ▸ hx) hk
        · exact h
      obtain ⟨r, hr, hrot⟩ := searchLoop_complete ks (clearKey g k) c
        (isCycleOf_clearKey g k c hk hc) hmem2
      exact ⟨r, List.mem_append_right _ hr, hrot⟩

theorem countP_le_one {α : Type} (p : α → Bool) :
    ∀ (l : List α), l.Pairwise (fun a b => ¬(p a = true ∧ p b = true)) →
      l.countP p ≤ 1
  | [], _ => by simp
  | a :: l, h => by
    rw [List.countP_cons]
    obtain ⟨hhead, htail⟩ := List.pairwise_cons.mp h
    by_cases hp : p a = true
    · have hz : l.countP p = 0 := by
        rw [List.countP_eq_zero]
        intro b hb hpb
        exact hhead b hb ⟨hp, hpb⟩
      simp [hz, hp]
    · have := countP_le_one p l htail
      rw [if_neg hp]
      omega

/-- C1: running the cycle search from every key in insertion order,
clearing each start unit's list after its search, reports every
elaboration cycle of a well-formed graph exactly once up to rotation:
the raw record list contains exactly one entry whose core is a rotation
of the given cycle. -/
theorem c1_every_cycle_reported_once (g : List (String × List String))
    (hWF : WFGraph g) (c : List String) (hc : isCycleOf g c) :
    (scan_records g).countP
      (fun r => decide (List.IsRotated r.dropLast c)) = 1 := by
  have hWFdeps : ∀ u, (lookupEdges g u).Nodup :=
    lookupEdges_nodup g (fun e he => (hWF.2 e he).1)
  obtain ⟨r, hr, hrot⟩ := searchLoop_complete (keys g) g c hc
    (cycle_subset_keys g c hc)
  have hpw := searchLoop_pairwise (keys g) g hWFdeps hWF.1
  have hpw2 : (scan_records g).Pairwise
      (fun a b => ¬(decide (List.IsRotated a.dropLast c) = true ∧
        decide (List.IsRotated b.dropLast c) = true)) := by
    refine hpw.imp ?_
    intro a b hnot hand
    exact hnot ((of_decide_eq_true hand.1).trans (of_decide_eq_true hand.2).symm)
  have hle := countP_le_one _ (scan_records g) hpw2
  have hge : 0 < (scan_records g).countP
      (fun r => decide (List.IsRotated r.dropLast c)) :=
    List.countP_pos_iff.mpr ⟨r, hr, by simpa using hrot⟩
  omega

theorem c1_every_cycle_reported_once_witness :
    WFGraph [("a", ["b"]), ("b", ["a", "c"]), ("c", ["b"])] ∧
      isCycleOf [("a", ["b"]), ("b", ["a", "c"]), ("c", ["b"])] ["b", "c"] ∧
      (scan_records [("a", ["b"]), ("b", ["a", "c"]), ("c", ["b"])]).countP
        (fun r => decide (List.IsRotated r.dropLast ["b", "c"])) = 1 :=
  ⟨by decide, by decide,
    c1_every_cycle_reported_once [("a", ["b"]), ("b", ["a", "c"]), ("c", ["b"])]
      (by decide) ["b", "c"] (by decide)⟩

end Scanner
